import Mathlib

/-!
Verification development for the MindMeld hierarchical NLP processing engine
(`mindmeld/components/nlp.py`).

The definitions below are shallow embeddings of the Python code: pure and
recursive functions mirror the corresponding methods, Python exceptions are
modelled with `Except`/an error inductive, Python object mutation (entity
post-processing) is modelled with an explicit store of entity objects, and
calls into the excluded statistical classifiers are modelled as opaque data
parameters together with an explicit call trace.
-/

set_option maxHeartbeats 1600000

/-! ## Data model

`EntObj` models a recognized `QueryEntity` together with its inner `Entity`:
entity type, character span, and the mutable `role`/`value` fields that are
filled in during post-processing.  `CoreEnt` is the view corresponding to the
inner `Entity` object (`query_entity.entity`), which is what the entity
resolver receives.
-/

structure EntObj where
  etype : String
  spanStart : Int
  spanEnd : Int
  role : Option String := none
  value : Option Nat := none
deriving DecidableEq, Repr, Inhabited

structure CoreEnt where
  etype : String
  role : Option String
  value : Option Nat
deriving DecidableEq, Repr, Inhabited

/-- The `.entity` projection of a `QueryEntity` (drops the span). -/

def EntObj.entity (e : EntObj) : CoreEnt :=
  ⟨e.etype, e.role, e.value⟩

/-- Errors raised by the processing engine.

* `allowedClassesKey` models `AllowedNlpClassesKeyError`;
* `processorNotReady` models `ProcessorError` from `_check_ready`;
* `valueError` models Python's `ValueError` (tuple unpacking);
* `indexError` models Python's `IndexError` (sequence subscript). -/

inductive NlpError where
  | allowedClassesKey (msg : String)
  | processorNotReady (msg : String)
  | valueError
  | indexError
deriving DecidableEq, Repr

/-- A call made to a statistical classifier (`predict` / `predict_proba`). -/

inductive ClfCall where
  | predict
  | predictProba
deriving DecidableEq, Repr

/-! ## N-best entity alignment (`IntentProcessor._align_entities`)

The alignment walk is defined generically over an element type `α` with a
match predicate `m`, so the same code can be run both on entity values
(claims about `_align_entities` itself) and on store references (the heap
model of `process_query`).  `spanMatch` instantiates `m` with the source's
overlap test.
-/

/-- Span/type test from `_align_entities`: widen a zero-length span by one
character, then require `min(n_end, ref_end) - max(ref_start, n_start) > 0`
and equal entity types. -/

def spanMatch (cand ref : EntObj) : Bool :=
  let nS := cand.spanStart
  let nE := if cand.spanStart = cand.spanEnd then cand.spanEnd + 1 else cand.spanEnd
  let rS := ref.spanStart
  let rE := if ref.spanEnd = ref.spanStart then ref.spanEnd + 1 else ref.spanEnd
  decide (min nE rE - max rS nS > 0) && (ref.etype == cand.etype)

/-- The inner `for j, ref_entity in enumerate(entities[0][index_to_align:])`
scan with its `break`: index of the first element of `rs` matching `cand`. -/

def findAlignIdxG (m : α → α → Bool) (cand : α) : List α → Option Nat
  | [] => none
  | r :: rs =>
    if m cand r then some 0
    else (findAlignIdxG m cand rs).map (· + 1)

/-- Models `aligned_entities[k].append(c)`. -/

def appendAt (groups : List (List α)) (k : Nat) (c : α) : List (List α) :=
  groups.set k (groups.getD k [] ++ [c])

/-- One transcript's walk (`for entity in entities_n`), carrying the
`index_to_align` pointer.  On a match at offset `j` from the pointer the code
does `index_to_align = index_to_align + j` and appends the candidate there. -/

def alignTranscriptG (m : α → α → Bool) (refs : List α) :
    Nat → List (List α) → List α → Nat × List (List α)
  | p, groups, [] => (p, groups)
  | p, groups, c :: cs =>
    match findAlignIdxG m c (refs.drop p) with
    | none => alignTranscriptG m refs p groups cs
    | some j => alignTranscriptG m refs (p + j) (appendAt groups (p + j) c) cs

/-- The same walk, recording for each candidate the pointer value on entry and
the reference-group index it was appended to (if any). -/

def alignTrace (m : α → α → Bool) (refs : List α) :
    Nat → List α → List (Nat × α × Option Nat)
  | _, [] => []
  | p, c :: cs =>
    match findAlignIdxG m c (refs.drop p) with
    | none => (p, c, none) :: alignTrace m refs p cs
    | some j => (p, c, some (p + j)) :: alignTrace m refs (p + j) cs

/-- Reference-group indices at which successive candidates were placed. -/

def matchedIndices (tr : List (Nat × α × Option Nat)) : List Nat :=
  tr.filterMap fun t => t.2.2

/-- Replay a trace's placements onto a group list. -/

def applyTrace (groups : List (List α)) (tr : List (Nat × α × Option Nat)) :
    List (List α) :=
  tr.foldl
    (fun g t =>
      match t.2.2 with
      | none => g
      | some k => appendAt g k t.2.1)
    groups

/-- Models `_align_entities`, generically: transcript 0 seeds one singleton group per
entity; each later transcript is walked only when there is more than one
transcript and n-best transcripts are enabled. -/

def alignG (m : α → α → Bool) (nbestEnabled : Bool)
    (e0 : List α) (rest : List (List α)) : List (List α) :=
  let aligned := e0.map fun e => [e]
  if 1 < rest.length + 1 ∧ nbestEnabled = true then
    rest.foldl (fun acc ents => (alignTranscriptG m e0 0 acc ents).2) aligned
  else aligned

/-- Models `IntentProcessor._align_entities` on a non-empty list of per-transcript
entity lists `e0 :: rest`. -/

def alignEntities (nbestEnabled : Bool) (e0 : List EntObj)
    (rest : List (List EntObj)) : List (List EntObj) :=
  alignG spanMatch nbestEnabled e0 rest

/-! ## Label selection (`NaturalLanguageProcessor._process_domain`,
`DomainProcessor.process_query`)

The classifiers are excluded components: the outcome of `predict` for this
query is the opaque parameter `clfPredict`, and the outcome of
`predict_proba` (a ranked, descending-confidence list of label/score pairs)
is `clfProba`.  Each function also returns the list of classifier calls it
performed, so "never queries the classifier" is a provable statement.
`allowed` models the keys of the `allowed_nlp_classes` dict (`none` for the
`None` argument; `some []`, like `None`, is falsy in Python). -/

/-- Models `NaturalLanguageProcessor._process_domain`. -/

def processDomain (domains : List String) (clfPredict : String)
    (clfProba : List (String × Rat)) (allowed : Option (List String))
    (verbose : Bool) :
    Except NlpError (String × Option (List (String × Rat))) × List ClfCall :=
  if 1 < domains.length then
    match allowed with
    | none | some [] =>
      if verbose then
        match clfProba with
        | [] => (.error .indexError, [.predictProba])
        | p :: _ => (.ok (p.1, some clfProba), [.predictProba])
      else (.ok (clfPredict, none), [.predict])
    | some [d] =>
      (.ok (d, if verbose then some [(d, (1 : Rat))] else none), [])
    | some ds =>
      let domainProba := if verbose then some clfProba else none
      match clfProba.find? fun pr => ds.contains pr.1 with
      | some pr => (.ok (pr.1, domainProba), [.predictProba])
      | none =>
        (.error (.allowedClassesKey
          ("Could not find user inputted domain in NLP hierarchy")), [.predictProba])
  else
    match domains with
    | [] => (.error .indexError, [])
    | d :: _ =>
      (.ok (d, if verbose then some [(d, (1 : Rat))] else none), [])

/-- Models `NaturalLanguageProcessor.process_query`, restricted to the ready check
and domain selection it performs before recursing into the chosen child. -/

def nlpProcessQuery (ready : Bool) (domains : List String) (clfPredict : String)
    (clfProba : List (String × Rat)) (allowed : Option (List String))
    (verbose : Bool) :
    Except NlpError (String × Option (List (String × Rat))) × List ClfCall :=
  if ready = false then
    (.error (.processorNotReady
      ("Processor not ready, models must be built or loaded first.")), [])
  else processDomain domains clfPredict clfProba allowed verbose

/-- Models `DomainProcessor.process_query`, restricted to the ready check and intent
selection.  The loop sets the sentinel `intent = None` and breaks on the first
ranked intent in the restriction; afterwards `if not intent` raises — which in
Python is also taken when the selected intent is the empty string (falsy). -/

def domainProcessQuery (ready : Bool) (intents : List String)
    (clfPredict : String) (clfProba : List (String × Rat))
    (allowed : Option (List String)) (verbose : Bool) :
    Except NlpError (String × Option (List (String × Rat))) × List ClfCall :=
  if ready = false then
    (.error (.processorNotReady
      ("Processor not ready, models must be built or loaded first.")), [])
  else if 1 < intents.length then
    match allowed with
    | none | some [] =>
      if verbose then
        match clfProba with
        | [] => (.error .indexError, [.predictProba])
        | p :: _ => (.ok (p.1, some clfProba), [.predictProba])
      else (.ok (clfPredict, none), [.predict])
    | some [i] =>
      (.ok (i, if verbose then some [(i, (1 : Rat))] else none), [])
    | some is =>
      let intentProba := if verbose then some clfProba else none
      match clfProba.find? fun pr => is.contains pr.1 with
      | some pr =>
        if pr.1 = "" then
          (.error (.allowedClassesKey
            ("Could not find user inputted intent in NLP hierarchy")), [.predictProba])
        else (.ok (pr.1, intentProba), [.predictProba])
      | none =>
        (.error (.allowedClassesKey
          ("Could not find user inputted intent in NLP hierarchy")), [.predictProba])
  else
    match intents with
    | [] => (.error .indexError, [])
    | i :: _ =>
      (.ok (i, if verbose then some [(i, (1 : Rat))] else none), [])

/-! ## Claim C6: `Processor` lifecycle

`ProcState` holds the `ready`/`dirty` flags of one processor; `ProcTree` is a
processor with its `_children`.  The abstract `_build`/`_dump`/`_load` hooks
touch only the classifiers (excluded components), never the flags, so the
flag effect of `build`/`dump`/`load` is exactly the assignments the base class
performs after recursing into the children. -/

structure ProcState where
  ready : Bool
  dirty : Bool
deriving DecidableEq, Repr

inductive ProcTree where
  | node (st : ProcState) (children : List ProcTree)
deriving Repr

mutual

/-- Models `Processor.build` (flag effect of a successful build): after `_build` and
the recursion into children, sets `ready = True` and `dirty = True`. -/
def buildP : ProcTree → ProcTree
  | .node _ cs => .node ⟨true, true⟩ (buildList cs)

def buildList : List ProcTree → List ProcTree
  | [] => []
  | t :: ts => buildP t :: buildList ts

end

mutual

/-- Models `Processor.dump`: after `_dump` and the recursion, sets `dirty = False`
(`ready` is left as it was). -/
def dumpP : ProcTree → ProcTree
  | .node st cs => .node ⟨st.ready, false⟩ (dumpList cs)

def dumpList : List ProcTree → List ProcTree
  | [] => []
  | t :: ts => dumpP t :: dumpList ts

end

mutual

/-- Models `Processor.load`: after `_load` and the recursion, sets `ready = True` and
`dirty = False`. -/
def loadP : ProcTree → ProcTree
  | .node _ cs => .node ⟨true, false⟩ (loadList cs)

def loadList : List ProcTree → List ProcTree
  | [] => []
  | t :: ts => loadP t :: loadList ts

end

mutual

/-- Predicate `P` holds at every node of the tree. -/
def allNodes (P : ProcState → Prop) : ProcTree → Prop
  | .node st cs => P st ∧ allNodesList P cs

def allNodesList (P : ProcState → Prop) : List ProcTree → Prop
  | [] => True
  | t :: ts => allNodes P t ∧ allNodesList P ts

end

/-! ## Claim C5: `Processor._process_list`

The worker pool and futures are modelled explicitly: each submitted task `i`
eventually yields `f items[i]` (the worker trampoline calls the same method on
the same registered instance), and `doneOrder` is the order in which the
`tasks.done` set is iterated when every task completed within the timeout.
`results = list(items)` makes the result list initially hold the input items
themselves, overwritten per index — modelled with a sum type, as Python lists
are heterogeneous.  If the pool is absent, the timeout fired, or any exception
escaped, the whole batch is re-run serially in list order. -/

/-- The completion loop `for future in tasks.done: results[idx] = ...`,
starting from `results = list(items)`. -/

def gatherResults {α β : Type} (f : α → β) (items : List α)
    (doneOrder : List Nat) : List (α ⊕ β) :=
  doneOrder.foldl
    (fun results i =>
      match items[i]? with
      | some a => results.set i (Sum.inr (f a))
      | none => results)
    (items.map Sum.inl)

/-- Models `Processor._process_list`: parallel gather when a pool exists and all
tasks completed before the timeout; otherwise (no pool configured, or
`tasks.not_done` non-empty, or a worker raised) restart the pool and process
the list serially. -/

def processList {α β : Type} (f : α → β) (items : List α)
    (usePool timedOut : Bool) (doneOrder : List Nat) : List (α ⊕ β) :=
  if usePool = true then
    if timedOut = true then items.map fun a => Sum.inr (f a)
    else gatherResults f items doneOrder
  else items.map fun a => Sum.inr (f a)

deriving instance DecidableEq for Except

/-! ## Claims C7 and C10: `NaturalLanguageProcessor.extract_allowed_intents`

The taxonomy is the `domains` association list (domain name, child intent
names), corresponding to `self.domains` and each `DomainProcessor.intents`.
The output `nlp_components` dict-of-dicts is modelled as an insertion-ordered
association list from domain to its intent list. -/

/-- Python's `str.split('.')` on the character list: one more part than there
are separators; an empty string yields `[""]`. -/

def splitChars : List Char → List (List Char)
  | [] => [[]]
  | c :: cs =>
    if c = '.' then [] :: splitChars cs
    else
      match splitChars cs with
      | [] => [[c]]
      | w :: ws => (c :: w) :: ws

/-- Models `allowed_intent.split(".")`. -/

def splitDot (s : String) : List String :=
  (splitChars s.data).map String.mk

/-- Models `domain in self.domains.keys()`. -/

def domainsHas (domains : List (String × List String)) (d : String) : Bool :=
  domains.any fun p => p.1 == d

/-- Models `self.domains[domain].intents.keys()`. -/

def intentsOf (domains : List (String × List String)) (d : String) : List String :=
  match domains.find? fun p => p.1 == d with
  | some p => p.2
  | none => []

/-- Models `if domain not in nlp_components` followed by inserting an empty dict for the domain. -/

def ensureDomain (comps : List (String × List String)) (d : String) :
    List (String × List String) :=
  if comps.any (fun p => p.1 == d) then comps else comps ++ [(d, [])]

/-- Models `nlp_components[domain][intent] = ...` (insertion-ordered dict update). -/

def addIntent : List (String × List String) → String → String →
    List (String × List String)
  | [], d, i => [(d, [i])]
  | p :: rest, d, i =>
    if p.1 == d then (p.1, if p.2.contains i then p.2 else p.2 ++ [i]) :: rest
    else p :: addIntent rest d i

/-- The `for allowed_intent in allowed_intents` loop body: unpack
`domain, intent = allowed_intent.split(".")` (a `ValueError` unless the split
has exactly two parts), validate the domain and (unless `"*"`) the intent
against the hierarchy, then record the intent, expanding `"*"` to all of the
domain's intents. -/

def extractAllowedIntentsGo (domains : List (String × List String)) :
    List (String × List String) → List String →
    Except NlpError (List (String × List String))
  | comps, [] => .ok comps
  | comps, s :: rest =>
    match splitDot s with
    | [domain, intent] =>
      if domainsHas domains domain = false then
        .error (.allowedClassesKey
          ("Domain: " ++ domain ++ " is not in the NLP component hierarchy"))
      else if intent != "*" && !(intentsOf domains domain).contains intent then
        .error (.allowedClassesKey
          ("Intent: " ++ intent ++ " is not in the NLP component hierarchy"))
      else
        let comps1 := ensureDomain comps domain
        let comps2 :=
          if intent == "*" then
            (intentsOf domains domain).foldl (fun c j => addIntent c domain j) comps1
          else addIntent comps1 domain intent
        extractAllowedIntentsGo domains comps2 rest
    | _ => .error .valueError

/-- Models `NaturalLanguageProcessor.extract_allowed_intents`. -/

def extractAllowedIntents (domains : List (String × List String))
    (allowed : List String) : Except NlpError (List (String × List String)) :=
  extractAllowedIntentsGo domains [] allowed

/-- An `allowed_intents` entry passes validation: it splits into exactly two
parts, its domain is in the hierarchy, and its intent is `"*"` or one of that
domain's intents. -/

def entryValid (domains : List (String × List String)) (s : String) : Bool :=
  match splitDot s with
  | [d, i] => domainsHas domains d && (i == "*" || (intentsOf domains d).contains i)
  | _ => false

/-- Intent `i` was recorded under `d` in the output hierarchy. -/

def compHas (comps : List (String × List String)) (d i : String) : Bool :=
  comps.any fun p => p.1 == d && p.2.contains i

/-- Domain `d` is a key of the output hierarchy. -/

def compDomHas (comps : List (String × List String)) (d : String) : Bool :=
  comps.any fun p => p.1 == d

/-! ## Claim C8: `EntityProcessor.process_entity` / `resolve_entity`

The role classifier's ranked output and prediction for this query are the
opaque parameters `roleProba`/`rolePredict`; the entity resolver is the
opaque function `resolverPredict` from a list of `Entity` objects to a
resolved value.  The call trace again witnesses which classifier calls were
made. -/

/-- Models `EntityProcessor.process_entity`: role classification, run only when the
role classifier has a non-empty role set. -/

def processEntity (roles : List String) (rolePredict : String)
    (roleProba : List (String × Rat)) (ready : Bool) (entities : List EntObj)
    (entityIndex : Nat) (verbose : Bool) :
    Except NlpError (EntObj × Option (List (String × Rat))) × List ClfCall :=
  if ready = false then
    (.error (.processorNotReady
      ("Processor not ready, models must be built or loaded first.")), [])
  else
    match entities[entityIndex]? with
    | none => (.error .indexError, [])
    | some entity =>
      if roles.isEmpty = false then
        if verbose then
          match roleProba with
          | [] => (.error .indexError, [.predictProba])
          | r :: _ =>
            (.ok ({ entity with role := some r.1 }, some roleProba), [.predictProba])
        else
          (.ok ({ entity with role := some rolePredict }, none), [.predict])
      else (.ok (entity, none), [])

/-- Models `EntityProcessor.resolve_entity`: `entity_list` is the aligned group's
`Entity` objects when a non-empty aligned group was supplied (a `None` or
empty list is falsy), else just this entity's own `Entity`. -/

def resolveEntity (resolverPredict : List CoreEnt → Nat) (ready : Bool)
    (entity : EntObj) (alignedEntitySpans : Option (List EntObj)) :
    Except NlpError EntObj :=
  if ready = false then
    .error (.processorNotReady
      ("Processor not ready, models must be built or loaded first."))
  else
    let entityList :=
      match alignedEntitySpans with
      | some (e :: es) => (e :: es).map EntObj.entity
      | _ => [entity.entity]
    .ok { entity with value := some (resolverPredict entityList) }

/-! ## Claim C9: `_process_entities` operates on deep copies

Python object identity is modelled with an explicit store: a `QueryEntity`
(with its inner `Entity`) is a store index, `deepcopy` allocates a fresh
index holding a copy of the object, and the in-place mutations
`entity.entity.role = ...` / `entity.entity.value = ...` update the store at
that index.  The role classifier and entity resolver are opaque per-type
functions in `EntResources`. -/

abbrev EntStore := List EntObj

structure EntResources where
  rolesOf : String → List String
  rolePredictOf : String → EntStore → List Nat → Nat → String
  roleProbaOf : String → EntStore → List Nat → Nat → List (String × Rat)
  resolverOf : String → List CoreEnt → Nat

/-- Dereference a store index. -/

def getObj (store : EntStore) (r : Nat) : EntObj :=
  store.getD r default

/-- Models `deepcopy(e)`: allocate a fresh object with the same contents. -/

def deepcopyEnt (store : EntStore) (r : Nat) : EntStore × Nat :=
  (store ++ [getObj store r], store.length)

/-- Models the role-classification half of `EntityProcessor.process_entity`,
acting in place on the copied entity at `processed[idx]` (no-op when the
entity type has no roles).  `entity.entity.role = role[0][0]` evaluates
`role[0][0]` first, so an empty `predict_proba` ranking raises `IndexError`
before any mutation. -/
def roleStepM (res : EntResources) (store : EntStore) (processed : List Nat)
    (idx : Nat) (verbose : Bool) :
    Except NlpError (EntStore × Option (List (String × Rat))) :=
  let c := processed.getD idx 0
  let obj := getObj store c
  if (res.rolesOf obj.etype).isEmpty = false then
    if verbose then
      match res.roleProbaOf obj.etype store processed idx with
      | [] => .error .indexError
      | r :: rest =>
        .ok (store.set c { obj with role := some r.1 }, some (r :: rest))
    else
      .ok (store.set c
        { obj with role := some (res.rolePredictOf obj.etype store processed idx) },
        none)
  else .ok (store, none)

/-- Models `IntentProcessor._classify_and_resolve_entities` for one index:
role-classify the copied entity in place (`process_entity`), then resolve it
in place (`resolve_entity`), reading the aligned group for resolution. -/
def classifyAndResolveM (res : EntResources) (store : EntStore)
    (processed : List Nat) (aligned : List (List Nat)) (idx : Nat)
    (verbose : Bool) :
    Except NlpError (EntStore × Option (List (String × Rat))) :=
  let c := processed.getD idx 0
  match roleStepM res store processed idx verbose with
  | .error e => .error e
  | .ok roleStep =>
    let store1 := roleStep.1
    let group := aligned.getD idx []
    let entityList :=
      if group.isEmpty then [(getObj store1 c).entity]
      else group.map fun r => (getObj store1 r).entity
    let obj1 := getObj store1 c
    .ok (store1.set c
        { obj1 with value := some (res.resolverOf obj1.etype entityList) },
      roleStep.2)

/-- One step of `[deepcopy(e) for e in entities[0]]`. -/
def copyStep (a : EntStore × List Nat) (r : Nat) : EntStore × List Nat :=
  let sc := deepcopyEnt a.1 r
  (sc.1, a.2 ++ [sc.2])

/-- One step of the per-index classify-and-resolve loop; an exception raised
for one entity aborts the whole serial loop. -/
def crStep (res : EntResources) (copies : List Nat) (aligned : List (List Nat))
    (verbose : Bool)
    (acc : Except NlpError (EntStore × List (Option (List (String × Rat)))))
    (i : Nat) :
    Except NlpError (EntStore × List (Option (List (String × Rat)))) :=
  match acc with
  | .error e => .error e
  | .ok sc =>
    match classifyAndResolveM res sc.1 copies aligned i verbose with
    | .error e => .error e
    | .ok sc1 => .ok (sc1.1, sc.2 ++ [sc1.2])

/-- Modelled from the spec: `Parser.parse_entities` — the `Parser`
implementation is not under `src/`.  Per the spec, the optional
structural-parsing stage "receives the full processed entity list and may
restructure it into parent/child nestings", running once after the
per-entity dispatch, and fills in no roles or values itself.  The
restructuring is modelled as an opaque choice that rebuilds the output list
from the processed entities it received: for each output slot it names the
index of the processed entity heading that slot's nesting. -/
def parseEntitiesM (parserChoice : List EntObj → List Nat) (store : EntStore)
    (processed : List Nat) : List Nat :=
  (parserChoice (processed.map fun r => getObj store r)).filterMap
    fun i => processed[i]?

/-- Models `IntentProcessor._process_entities` (serial dispatch path):
deep-copy the reference transcript's entities, classify-and-resolve each copy
by index, then run the structural parser over the processed list when the
intent has one (`... if self.parser else processed_entities`). -/
def processEntitiesM (res : EntResources)
    (parser : Option (List EntObj → List Nat)) (store : EntStore)
    (ents0 : List Nat) (aligned : List (List Nat)) (verbose : Bool) :
    Except NlpError (EntStore × List Nat × List (Option (List (String × Rat)))) :=
  let copyFold := ents0.foldl copyStep (store, [])
  match (List.range copyFold.2.length).foldl
      (crStep res copyFold.2 aligned verbose) (.ok (copyFold.1, [])) with
  | .error e => .error e
  | .ok mainFold =>
    let finalEnts :=
      match parser with
      | some p => parseEntitiesM p mainFold.1 copyFold.2
      | none => copyFold.2
    .ok (mainFold.1, finalEnts, mainFold.2)

structure PQModel where
  entities : List Nat
  nbestEntities : List (List Nat)
  nbestAligned : List (List Nat)
  roleConfidence : List (Option (List (String × Rat)))
deriving DecidableEq, Repr

/-- Models `IntentProcessor.process_query` on the n-best path: align the
recognized per-transcript entities, post-process deep copies of transcript
0's entities (including the optional structural-parsing stage), and return
the processed entities alongside the original recognized entities and
alignment groups; an exception raised during per-entity processing
propagates. -/
def intentProcessQueryNbestM (res : EntResources)
    (parser : Option (List EntObj → List Nat)) (store : EntStore)
    (ents0 : List Nat) (restEnts : List (List Nat)) (verbose : Bool) :
    Except NlpError (EntStore × PQModel) :=
  let aligned :=
    alignG (fun a b => spanMatch (getObj store a) (getObj store b)) true
      ents0 restEnts
  match processEntitiesM res parser store ents0 aligned verbose with
  | .error e => .error e
  | .ok pe =>
    .ok (pe.1,
      { entities := pe.2.1, nbestEntities := ents0 :: restEnts,
        nbestAligned := aligned, roleConfidence := pe.2.2 })

example :
    alignEntities true
      [⟨"number", 5, 6, none, none⟩]
      [[⟨"number", 5, 6, none, none⟩], [⟨"size", 5, 6, none, none⟩]]
      = [[⟨"number", 5, 6, none, none⟩, ⟨"number", 5, 6, none, none⟩]] := by
  decide

example :
    alignEntities false
      [⟨"number", 5, 6, none, none⟩]
      [[⟨"number", 5, 6, none, none⟩]]
      = [[⟨"number", 5, 6, none, none⟩]] := by
  decide

/-! ## Alignment lemmas -/

theorem findAlignIdxG_some {α : Type} {m : α → α → Bool} {c : α} :
    ∀ {rs : List α} {j : Nat}, findAlignIdxG m c rs = some j →
      (∃ r, rs[j]? = some r ∧ m c r = true) ∧
      ∀ (k : Nat) (r : α), k < j → rs[k]? = some r → m c r = false := by
  intro rs
  induction rs with
  | nil => intro j h; simp [findAlignIdxG] at h
  | cons r rs ih =>
    intro j h
    by_cases hm : m c r = true
    · simp [findAlignIdxG, hm] at h
      subst h
      exact ⟨⟨r, by simp, hm⟩, fun k r' hk => absurd hk (Nat.not_lt_zero k)⟩
    · simp only [findAlignIdxG, if_neg hm, Option.map_eq_some'] at h
      obtain ⟨j', hj', hj⟩ := h
      subst hj
      obtain ⟨⟨r', hr', hmr'⟩, hmin⟩ := ih hj'
      refine ⟨⟨r', by simpa using hr', hmr'⟩, ?_⟩
      intro k r'' hk hr''
      match k with
      | 0 =>
        simp at hr''
        subst hr''
        exact eq_false_of_ne_true hm
      | k + 1 =>
        simp at hr''
        exact hmin k r'' (Nat.lt_of_succ_lt_succ hk) hr''

theorem findAlignIdxG_none {α : Type} {m : α → α → Bool} {c : α} :
    ∀ {rs : List α}, findAlignIdxG m c rs = none →
      ∀ (k : Nat) (r : α), rs[k]? = some r → m c r = false := by
  intro rs
  induction rs with
  | nil => intro _ k r hr; simp at hr
  | cons r rs ih =>
    intro h k r' hr'
    by_cases hm : m c r = true
    · simp [findAlignIdxG, hm] at h
    · simp only [findAlignIdxG, if_neg hm, Option.map_eq_none'] at h
      match k with
      | 0 =>
        simp at hr'
        subst hr'
        exact eq_false_of_ne_true hm
      | k + 1 =>
        simp at hr'
        exact ih h k r' hr'

theorem alignTranscriptG_length {α : Type} {m : α → α → Bool} {refs : List α} :
    ∀ (cs : List α) (p : Nat) (groups : List (List α)),
      (alignTranscriptG m refs p groups cs).2.length = groups.length := by
  intro cs
  induction cs with
  | nil => intro p groups; rfl
  | cons c cs ih =>
    intro p groups
    unfold alignTranscriptG
    cases h : findAlignIdxG m c (refs.drop p) with
    | none => exact ih p groups
    | some j =>
      rw [ih]
      simp [appendAt]

theorem alignTranscriptG_getElem? {α : Type} {m : α → α → Bool} {refs : List α} :
    ∀ (cs : List α) (p : Nat) (groups : List (List α)) (i : Nat) (g0 : List α),
      groups[i]? = some g0 →
      ∃ suf, (alignTranscriptG m refs p groups cs).2[i]? = some (g0 ++ suf) ∧
        ∀ c ∈ suf, c ∈ cs ∧ ∃ r, refs[i]? = some r ∧ m c r = true := by
  intro cs
  induction cs with
  | nil =>
    intro p groups i g0 hg
    exact ⟨[], by simpa [alignTranscriptG] using hg, by simp⟩
  | cons c cs ih =>
    intro p groups i g0 hg
    unfold alignTranscriptG
    cases h : findAlignIdxG m c (refs.drop p) with
    | none =>
      obtain ⟨suf, h1, h2⟩ := ih p groups i g0 hg
      exact ⟨suf, h1, fun x hx =>
        ⟨List.mem_cons_of_mem _ (h2 x hx).1, (h2 x hx).2⟩⟩
    | some j =>
      obtain ⟨⟨r, hr, hmr⟩, _⟩ := findAlignIdxG_some h
      rw [List.getElem?_drop] at hr
      by_cases hij : i = p + j
      · subst hij
        have hilt : p + j < groups.length := (List.getElem?_eq_some.mp hg).1
        have hgD : groups.getD (p + j) [] = g0 := by
          simp [List.getD_eq_getElem?_getD, hg]
        have hset : (appendAt groups (p + j) c)[p + j]? = some (g0 ++ [c]) := by
          rw [appendAt, hgD]
          rw [List.getElem?_set_eq_of_lt (g0 ++ [c]) hilt]
        obtain ⟨suf, h1, h2⟩ :=
          ih (p + j) (appendAt groups (p + j) c) (p + j) (g0 ++ [c]) hset
        refine ⟨c :: suf, ?_, ?_⟩
        · rw [h1]
          simp
        · intro x hx
          rcases List.mem_cons.mp hx with hx | hx
          · subst hx
            exact ⟨List.mem_cons_self _ _, r, hr, hmr⟩
          · exact ⟨List.mem_cons_of_mem _ (h2 x hx).1, (h2 x hx).2⟩
      · have hstep : (appendAt groups (p + j) c)[i]? = some g0 := by
          rw [appendAt, List.getElem?_set_ne (fun hc => hij hc.symm)]
          exact hg
        obtain ⟨suf, h1, h2⟩ := ih (p + j) _ i g0 hstep
        exact ⟨suf, h1, fun x hx =>
          ⟨List.mem_cons_of_mem _ (h2 x hx).1, (h2 x hx).2⟩⟩

theorem foldAlign_length {α : Type} (m : α → α → Bool) (e0 : List α) :
    ∀ (rest : List (List α)) (groups : List (List α)),
      (rest.foldl (fun acc ents => (alignTranscriptG m e0 0 acc ents).2) groups).length
        = groups.length := by
  intro rest
  induction rest with
  | nil => intro groups; rfl
  | cons ents rest ih =>
    intro groups
    rw [List.foldl_cons, ih, alignTranscriptG_length]

theorem foldAlign_getElem? {α : Type} (m : α → α → Bool) (e0 : List α) :
    ∀ (rest : List (List α)) (groups : List (List α)) (i : Nat) (g0 : List α),
      groups[i]? = some g0 →
      ∃ suf,
        (rest.foldl (fun acc ents => (alignTranscriptG m e0 0 acc ents).2) groups)[i]?
          = some (g0 ++ suf) ∧
        ∀ c ∈ suf, c ∈ rest.flatten ∧ ∃ r, e0[i]? = some r ∧ m c r = true := by
  intro rest
  induction rest with
  | nil =>
    intro groups i g0 hg
    exact ⟨[], by simpa using hg, by simp⟩
  | cons ents rest ih =>
    intro groups i g0 hg
    obtain ⟨suf1, h1, h2⟩ := alignTranscriptG_getElem? ents 0 groups i g0 hg
    obtain ⟨suf2, h3, h4⟩ := ih _ i _ h1
    refine ⟨suf1 ++ suf2, ?_, ?_⟩
    · simpa [List.append_assoc] using h3
    · intro c hc
      rcases List.mem_append.mp hc with hc | hc
      · refine ⟨?_, (h2 c hc).2⟩
        rw [List.flatten_cons]
        exact List.mem_append.mpr (Or.inl (h2 c hc).1)
      · refine ⟨?_, (h4 c hc).2⟩
        rw [List.flatten_cons]
        exact List.mem_append.mpr (Or.inr (h4 c hc).1)

theorem alignTrace_mem_spec {α : Type} {m : α → α → Bool} {refs : List α} :
    ∀ (cs : List α) (p q : Nat) (c : α) (res : Option Nat),
      (q, c, res) ∈ alignTrace m refs p cs →
      (res = none → ∀ (k : Nat) (r : α), q ≤ k → refs[k]? = some r → m c r = false) ∧
      (∀ j, res = some j → q ≤ j ∧ (∃ r, refs[j]? = some r ∧ m c r = true) ∧
        ∀ (k : Nat) (r : α), q ≤ k → k < j → refs[k]? = some r → m c r = false) := by
  intro cs
  induction cs with
  | nil => intro p q c res h; simp [alignTrace] at h
  | cons c0 cs ih =>
    intro p q c res h
    unfold alignTrace at h
    cases hf : findAlignIdxG m c0 (refs.drop p) with
    | none =>
      rw [hf] at h
      rcases List.mem_cons.mp h with heq | hmem
      · have h1 : q = p := congrArg Prod.fst heq
        have h2 : c = c0 := congrArg (fun t => t.2.1) heq
        have h3 : res = none := congrArg (fun t => t.2.2) heq
        subst h1
        subst h2
        subst h3
        refine ⟨?_, ?_⟩
        · intro _ k r hqk hr
          have hnone := findAlignIdxG_none hf (k - q) r
          rw [List.getElem?_drop, Nat.add_sub_cancel' hqk] at hnone
          exact hnone hr
        · intro j hj
          exact absurd hj (by simp)
      · exact ih p q c res hmem
    | some j0 =>
      rw [hf] at h
      rcases List.mem_cons.mp h with heq | hmem
      · have h1 : q = p := congrArg Prod.fst heq
        have h2 : c = c0 := congrArg (fun t => t.2.1) heq
        have h3 : res = some (p + j0) := congrArg (fun t => t.2.2) heq
        subst h1
        subst h2
        subst h3
        obtain ⟨⟨r, hr, hmr⟩, hmin⟩ := findAlignIdxG_some hf
        rw [List.getElem?_drop] at hr
        refine ⟨by simp, ?_⟩
        intro j hj
        injection hj with hj
        subst hj
        refine ⟨Nat.le_add_right _ _, ⟨r, hr, hmr⟩, ?_⟩
        intro k r' hqk hkj hr'
        have hk' : k - q < j0 := by omega
        have hmm := hmin (k - q) r' hk'
        rw [List.getElem?_drop, Nat.add_sub_cancel' hqk] at hmm
        exact hmm hr'
      · exact ih (p + j0) q c res hmem

theorem alignTranscriptG_eq_applyTrace {α : Type} {m : α → α → Bool} {refs : List α} :
    ∀ (cs : List α) (p : Nat) (groups : List (List α)),
      (alignTranscriptG m refs p groups cs).2
        = applyTrace groups (alignTrace m refs p cs) := by
  intro cs
  induction cs with
  | nil => intro p groups; rfl
  | cons c cs ih =>
    intro p groups
    unfold alignTranscriptG alignTrace
    cases hf : findAlignIdxG m c (refs.drop p) with
    | none => simpa [applyTrace] using ih p groups
    | some j => simpa [applyTrace] using ih (p + j) (appendAt groups (p + j) c)

theorem alignTrace_matched_le {α : Type} {m : α → α → Bool} {refs : List α} :
    ∀ (cs : List α) (p : Nat),
      (∀ k ∈ matchedIndices (alignTrace m refs p cs), p ≤ k) ∧
      List.Chain' (· ≤ ·) (matchedIndices (alignTrace m refs p cs)) := by
  intro cs
  induction cs with
  | nil =>
    intro p
    constructor
    · intro k hk; simp [matchedIndices, alignTrace] at hk
    · simp [matchedIndices, alignTrace]
  | cons c cs ih =>
    intro p
    unfold alignTrace
    cases hf : findAlignIdxG m c (refs.drop p) with
    | none =>
      have h := ih p
      constructor
      · intro k hk
        simp only [matchedIndices, List.filterMap_cons] at hk
        exact h.1 k hk
      · simp only [matchedIndices, List.filterMap_cons]
        exact h.2
    | some j =>
      have h := ih (p + j)
      constructor
      · intro k hk
        simp only [matchedIndices, List.filterMap_cons] at hk
        rcases List.mem_cons.mp hk with hk | hk
        · subst hk; exact Nat.le_add_right _ _
        · exact Nat.le_trans (Nat.le_add_right _ _) (h.1 k hk)
      · simp only [matchedIndices, List.filterMap_cons]
        refine List.chain'_cons'.mpr ⟨?_, h.2⟩
        intro b hb
        exact h.1 b (List.mem_of_mem_head? hb)

/-! ## Claims C1 and C2: `_align_entities` -/

/-- Claim C1: for every non-empty list of per-transcript entity lists,
`_align_entities` returns exactly one group per entity of transcript 0, in
transcript-0 order, with the reference entity as the group's first element; a
candidate from a later transcript is appended to a reference group only if it
has the same entity type and positive span overlap (after widening zero-length
spans); the first match from the pointer onward wins; and a candidate matching
no reference entity appears in no group. -/

theorem c1_align_entities_groups (nbestEnabled : Bool) (e0 : List EntObj)
    (rest : List (List EntObj)) :
    (alignEntities nbestEnabled e0 rest).length = e0.length
  ∧ (∀ (i : Nat) (e : EntObj), e0[i]? = some e →
      ∃ tl, (alignEntities nbestEnabled e0 rest)[i]? = some (e :: tl)
        ∧ ∀ c ∈ tl, c ∈ rest.flatten ∧ spanMatch c e = true)
  ∧ (∀ (cands : List EntObj) (p q : Nat) (c : EntObj) (res : Option Nat),
      (q, c, res) ∈ alignTrace spanMatch e0 p cands →
        (res = none →
          ∀ (k : Nat) (r : EntObj), q ≤ k → e0[k]? = some r → spanMatch c r = false)
      ∧ (∀ j, res = some j →
          q ≤ j ∧ (∃ r, e0[j]? = some r ∧ spanMatch c r = true)
          ∧ ∀ (k : Nat) (r : EntObj),
              q ≤ k → k < j → e0[k]? = some r → spanMatch c r = false))
  ∧ (∀ (p : Nat) (groups : List (List EntObj)) (cands : List EntObj),
      (alignTranscriptG spanMatch e0 p groups cands).2
        = applyTrace groups (alignTrace spanMatch e0 p cands)) := by
  refine ⟨?_, ?_, ?_, ?_⟩
  · unfold alignEntities alignG
    by_cases hc : 1 < rest.length + 1 ∧ nbestEnabled = true
    · simp only [if_pos hc]
      rw [foldAlign_length]
      simp
    · simp only [if_neg hc]
      simp
  · intro i e he
    unfold alignEntities alignG
    have hinit : (e0.map fun x => [x])[i]? = some [e] := by
      simp [he]
    by_cases hc : 1 < rest.length + 1 ∧ nbestEnabled = true
    · simp only [if_pos hc]
      obtain ⟨suf, h1, h2⟩ := foldAlign_getElem? spanMatch e0 rest _ i [e] hinit
      exact ⟨suf, by simpa using h1, fun c hcm =>
        ⟨(h2 c hcm).1, by
          obtain ⟨r, hr, hmr⟩ := (h2 c hcm).2
          rw [he] at hr
          injection hr with hr
          subst hr
          exact hmr⟩⟩
    · simp only [if_neg hc]
      exact ⟨[], by simpa using hinit, by simp⟩
  · intro cands p q c res h
    exact alignTrace_mem_spec cands p q c res h
  · intro p groups cands
    exact alignTranscriptG_eq_applyTrace cands p groups

theorem c1_align_entities_groups_witness :
    ∃ tl,
      (alignEntities true [⟨"number", 5, 6, none, none⟩]
          [[⟨"number", 5, 6, none, none⟩]])[0]?
        = some (⟨"number", 5, 6, none, none⟩ :: tl)
      ∧ ∀ c ∈ tl, c ∈ [[(⟨"number", 5, 6, none, none⟩ : EntObj)]].flatten
          ∧ spanMatch c ⟨"number", 5, 6, none, none⟩ = true :=
  (c1_align_entities_groups true [⟨"number", 5, 6, none, none⟩]
    [[⟨"number", 5, 6, none, none⟩]]).2.1 0 ⟨"number", 5, 6, none, none⟩ (by simp)

/-- Claim C2: alignment is monotonic — within each transcript after the
reference, the sequence of reference-group indices at which successive
candidate entities are placed is non-decreasing (no candidate aligns strictly
before an earlier candidate's group); the trace replays exactly the group
updates `_align_entities` performs on each transcript. -/

theorem c2_align_monotonic (e0 cands : List EntObj) :
    List.Chain' (· ≤ ·) (matchedIndices (alignTrace spanMatch e0 0 cands))
  ∧ ∀ (p : Nat) (groups : List (List EntObj)),
      (alignTranscriptG spanMatch e0 p groups cands).2
        = applyTrace groups (alignTrace spanMatch e0 p cands) := by
  refine ⟨(alignTrace_matched_le cands 0).2, ?_⟩
  intro p groups
  exact alignTranscriptG_eq_applyTrace cands p groups

theorem c2_align_monotonic_witness :
    List.Chain' (· ≤ ·)
      (matchedIndices
        (alignTrace spanMatch [⟨"number", 5, 6, none, none⟩] 0
          [⟨"number", 5, 6, none, none⟩])) :=
  (c2_align_monotonic [⟨"number", 5, 6, none, none⟩]
    [⟨"number", 5, 6, none, none⟩]).1

example :
    processDomain ["smart_home", "store"] ("store")
      [("store", (3 : Rat)/4), ("smart_home", (1 : Rat)/4)]
      (some ["smart_home", "banking"]) false
      = (.ok ("smart_home", none), [.predictProba]) := by
  rfl

example :
    domainProcessQuery true ["close_door", "open_door"] ("open_door")
      [("open_door", (3 : Rat)/5), ("close_door", (2 : Rat)/5)]
      (some ["close_door"]) true
      = (.ok ("close_door", some [("close_door", 1)]), []) := by
  rfl

/-! ## Claims C3 and C4: restricted label selection -/

theorem find?_first {σ : Type} {p : σ → Bool} :
    ∀ {l : List σ} {i : Nat} {x : σ}, l[i]? = some x → p x = true →
      (∀ (k : Nat) (y : σ), k < i → l[k]? = some y → p y = false) →
      l.find? p = some x := by
  intro l
  induction l with
  | nil => intro i x h; simp at h
  | cons a l ih =>
    intro i x h hp hmin
    match i with
    | 0 =>
      simp at h
      subst h
      simp [List.find?_cons, hp]
    | i + 1 =>
      have ha : p a = false := hmin 0 a (Nat.succ_pos i) (by simp)
      simp at h
      rw [List.find?_cons_of_neg _ (by simp [ha])]
      exact ih h hp fun k y hk hy => hmin (k + 1) y (Nat.succ_lt_succ hk) (by simpa using hy)

theorem exists_cons_cons_of_two_le {σ : Type} {l : List σ} (h : 2 ≤ l.length) :
    ∃ a b t, l = a :: b :: t := by
  match l with
  | a :: b :: t => exact ⟨a, b, t, rfl⟩
  | [] => simp at h
  | [a] => simp at h

/-- Claim C3 counterexample: at the intent tier, with taxonomy labels
`["", "a"]`, ranked list `[("", 1), ("a", 0)]` and restriction `["", "a"]`,
the first ranked label in the restriction is the empty string; the code's
`if not intent` sentinel check treats it as falsy and raises
`AllowedNlpClassesKeyError` even though a ranked label belongs to the
restriction set — contradicting the claimed "raises iff no label of the
ranked list belongs to the restriction set". -/

theorem c3_restricted_selection_counterexample :
    (domainProcessQuery true ["", "a"] ("a")
        [("", (1 : Rat)), ("a", (0 : Rat))] (some ["", "a"]) false).1
      = .error (.allowedClassesKey
          ("Could not find user inputted intent in NLP hierarchy"))
  ∧ ("" ∈ ["", "a"])
  ∧ (("", (1 : Rat)) ∈ [("", (1 : Rat)), ("a", (0 : Rat))]) :=
  ⟨rfl, by simp, by simp⟩

/-- Claim C3 (amended): for every query and restriction set with at least two
candidate labels, label selection returns the first label of the ranked list
that belongs to the restriction set, and raises `AllowedNlpClassesKeyError`
iff no ranked label belongs to the restriction — unconditionally at the
domain tier, and at the intent tier provided the selected label is not the
empty string; when the selected label is the empty string the intent tier's
falsy sentinel check raises instead. -/
theorem c3_restricted_selection (domains intents : List String)
    (clfPredict : String) (clfProba : List (String × Rat))
    (allowed : List String) (verbose : Bool)
    (hdom : 2 ≤ domains.length) (hint : 2 ≤ intents.length)
    (hallowed : 2 ≤ allowed.length) :
    (∀ (i : Nat) (pr : String × Rat), clfProba[i]? = some pr →
        allowed.contains pr.1 = true →
        (∀ (k : Nat) (pk : String × Rat), k < i → clfProba[k]? = some pk →
          allowed.contains pk.1 = false) →
        (processDomain domains clfPredict clfProba (some allowed) verbose).1
            = .ok (pr.1, if verbose then some clfProba else none)
      ∧ (pr.1 ≠ "" →
          (domainProcessQuery true intents clfPredict clfProba (some allowed) verbose).1
            = .ok (pr.1, if verbose then some clfProba else none))
      ∧ (pr.1 = "" →
          (domainProcessQuery true intents clfPredict clfProba (some allowed) verbose).1
            = .error (.allowedClassesKey
                ("Could not find user inputted intent in NLP hierarchy"))))
  ∧ ((∀ pr ∈ clfProba, allowed.contains pr.1 = false) →
        (processDomain domains clfPredict clfProba (some allowed) verbose).1
            = .error (.allowedClassesKey
                ("Could not find user inputted domain in NLP hierarchy"))
      ∧ (domainProcessQuery true intents clfPredict clfProba (some allowed) verbose).1
            = .error (.allowedClassesKey
                ("Could not find user inputted intent in NLP hierarchy")))
  ∧ ((∃ pr ∈ clfProba, allowed.contains pr.1 = true) →
        (∃ lbl prb,
            (processDomain domains clfPredict clfProba (some allowed) verbose).1
              = .ok (lbl, prb) ∧ allowed.contains lbl = true)
      ∧ ((∀ pr, clfProba.find? (fun x => allowed.contains x.1) = some pr →
            pr.1 ≠ "") →
          ∃ lbl prb,
            (domainProcessQuery true intents clfPredict clfProba (some allowed) verbose).1
              = .ok (lbl, prb) ∧ allowed.contains lbl = true)
      ∧ (∀ pr, clfProba.find? (fun x => allowed.contains x.1) = some pr →
          pr.1 = "" →
          (domainProcessQuery true intents clfPredict clfProba (some allowed) verbose).1
            = .error (.allowedClassesKey
                ("Could not find user inputted intent in NLP hierarchy")))) := by
  obtain ⟨a, b, t, rfl⟩ := exists_cons_cons_of_two_le hallowed
  have hd1 : 1 < domains.length := by omega
  have hi1 : 1 < intents.length := by omega
  refine ⟨?_, ?_, ?_⟩
  · intro i pr hi hpr hmin
    have hfind := find?_first hi hpr hmin
    refine ⟨?_, ?_, ?_⟩
    · unfold processDomain
      rw [if_pos hd1]
      simp only [hfind]
    · intro hne
      unfold domainProcessQuery
      rw [if_neg (by simp), if_pos hi1]
      simp only [hfind, if_neg hne]
    · intro heq
      unfold domainProcessQuery
      rw [if_neg (by simp), if_pos hi1]
      simp only [hfind, if_pos heq]
  · intro hall
    have hfind : clfProba.find? (fun pr => (a :: b :: t).contains pr.1) = none :=
      List.find?_eq_none.mpr fun x hx => by rw [hall x hx]; simp
    constructor
    · unfold processDomain
      rw [if_pos hd1]
      simp only [hfind]
    · unfold domainProcessQuery
      rw [if_neg (by simp), if_pos hi1]
      simp only [hfind]
  · intro hex
    have hsome : (clfProba.find? fun pr => (a :: b :: t).contains pr.1).isSome := by
      rw [List.find?_isSome]
      obtain ⟨pr, hpr, hc⟩ := hex
      exact ⟨pr, hpr, hc⟩
    obtain ⟨pr, hfind⟩ := Option.isSome_iff_exists.mp hsome
    have hc : (a :: b :: t).contains pr.1 = true := by
      simpa using List.find?_some hfind
    refine ⟨?_, ?_, ?_⟩
    · refine ⟨pr.1, if verbose then some clfProba else none, ?_, hc⟩
      unfold processDomain
      rw [if_pos hd1]
      simp only [hfind]
    · intro hne
      have hne' : pr.1 ≠ "" := hne pr hfind
      refine ⟨pr.1, if verbose then some clfProba else none, ?_, hc⟩
      unfold domainProcessQuery
      rw [if_neg (by simp), if_pos hi1]
      simp only [hfind, if_neg hne']
    · intro pr' hfind' heq
      rw [hfind] at hfind'
      injection hfind' with hfind'
      subst hfind'
      unfold domainProcessQuery
      rw [if_neg (by simp), if_pos hi1]
      simp only [hfind, if_pos heq]

theorem c3_restricted_selection_witness :
    (processDomain ["x", "y"] ("x") [("a", (1 : Rat)), ("b", (0 : Rat))]
        (some ["b", "a"]) false).1 = .ok ("a", none)
  ∧ (domainProcessQuery true ["u", "v"] ("x") [("a", (1 : Rat)), ("b", (0 : Rat))]
        (some ["b", "a"]) false).1 = .ok ("a", none) := by
  have h := (c3_restricted_selection ["x", "y"] ["u", "v"] ("x")
      [("a", (1 : Rat)), ("b", (0 : Rat))] ["b", "a"] false
      (by decide) (by decide) (by decide)).1
    0 ("a", (1 : Rat)) (by simp) (by decide)
    (fun k pk hk => absurd hk (Nat.not_lt_zero k))
  exact ⟨h.1, h.2.1 (by decide)⟩

/-- Claim C4: when a tier has exactly one child label, selection returns that
label with confidence 1.0 without invoking the tier's classifier (empty call
trace); and when the restriction set has exactly one candidate label, that
label is returned directly, confidence forced to 1.0 when probabilities were
requested, again without querying the classifier. -/

theorem c4_single_label_shortcut (domains intents : List String) (d i : String)
    (clfPredict : String) (clfProba : List (String × Rat)) (verbose : Bool)
    (allowed : Option (List String))
    (hdom : 1 < domains.length) (hint : 1 < intents.length) :
    processDomain [d] clfPredict clfProba allowed verbose
        = (.ok (d, if verbose then some [(d, (1 : Rat))] else none), [])
  ∧ domainProcessQuery true [i] clfPredict clfProba allowed verbose
        = (.ok (i, if verbose then some [(i, (1 : Rat))] else none), [])
  ∧ processDomain domains clfPredict clfProba (some [d]) verbose
        = (.ok (d, if verbose then some [(d, (1 : Rat))] else none), [])
  ∧ domainProcessQuery true intents clfPredict clfProba (some [i]) verbose
        = (.ok (i, if verbose then some [(i, (1 : Rat))] else none), []) := by
  refine ⟨?_, ?_, ?_, ?_⟩
  · unfold processDomain
    rw [if_neg (by simp)]
  · unfold domainProcessQuery
    rw [if_neg (by simp), if_neg (by simp)]
  · unfold processDomain
    rw [if_pos hdom]
  · unfold domainProcessQuery
    rw [if_neg (by simp), if_pos hint]

theorem c4_single_label_shortcut_witness :
    1 < (["a", "b"] : List String).length
  ∧ processDomain ["a", "b"] ("a") [] (some ["b"]) false = (.ok ("b", none), [])
  ∧ processDomain ["c"] ("a") [] none true
      = (.ok ("c", some [("c", (1 : Rat))]), []) :=
  ⟨by decide,
    (c4_single_label_shortcut ["a", "b"] ["x", "y"] ("b") ("y") ("a") [] false
      (some ["b"]) (by decide) (by decide)).2.2.1,
    (c4_single_label_shortcut ["a", "b"] ["x", "y"] ("c") ("y") ("a") [] true
      none (by decide) (by decide)).1⟩

mutual

theorem buildP_all : ∀ t, allNodes (fun st => st.ready = true ∧ st.dirty = true) (buildP t)
  | .node _ cs => ⟨⟨rfl, rfl⟩, buildList_all cs⟩

theorem buildList_all :
    ∀ ts, allNodesList (fun st => st.ready = true ∧ st.dirty = true) (buildList ts)
  | [] => trivial
  | t :: ts => ⟨buildP_all t, buildList_all ts⟩

end

mutual

theorem dumpP_all : ∀ t, allNodes (fun st => st.dirty = false) (dumpP t)
  | .node _ cs => ⟨rfl, dumpList_all cs⟩

theorem dumpList_all : ∀ ts, allNodesList (fun st => st.dirty = false) (dumpList ts)
  | [] => trivial
  | t :: ts => ⟨dumpP_all t, dumpList_all ts⟩

end

mutual

theorem loadP_all : ∀ t, allNodes (fun st => st.ready = true ∧ st.dirty = false) (loadP t)
  | .node _ cs => ⟨⟨rfl, rfl⟩, loadList_all cs⟩

theorem loadList_all :
    ∀ ts, allNodesList (fun st => st.ready = true ∧ st.dirty = false) (loadList ts)
  | [] => trivial
  | t :: ts => ⟨loadP_all t, loadList_all ts⟩

end

/-- Claim C6: every processor satisfies the lifecycle state machine — after a
successful `build()` every node has `ready = true` and `dirty = true`; after
`load()` every node has `ready = true` and `dirty = false`; `dump()` sets
`dirty = false` at every node (preserving `ready`); and invoking
`process_query` before `ready == true` raises `ProcessorError` with an empty
classifier-call trace (no classifier is consulted). -/

theorem c6_lifecycle (t : ProcTree) (st : ProcState) (cs : List ProcTree)
    (domains intents : List String) (clfPredict : String)
    (clfProba : List (String × Rat)) (allowed : Option (List String))
    (verbose : Bool) :
    allNodes (fun s => s.ready = true ∧ s.dirty = true) (buildP t)
  ∧ allNodes (fun s => s.ready = true ∧ s.dirty = false) (loadP t)
  ∧ allNodes (fun s => s.dirty = false) (dumpP t)
  ∧ dumpP (ProcTree.node st cs) = ProcTree.node ⟨st.ready, false⟩ (dumpList cs)
  ∧ nlpProcessQuery false domains clfPredict clfProba allowed verbose
      = (.error (.processorNotReady
          ("Processor not ready, models must be built or loaded first.")), [])
  ∧ domainProcessQuery false intents clfPredict clfProba allowed verbose
      = (.error (.processorNotReady
          ("Processor not ready, models must be built or loaded first.")), []) :=
  ⟨buildP_all t, loadP_all t, dumpP_all t, rfl, rfl, rfl⟩

theorem gatherResults_length {α β : Type} (f : α → β) (items : List α) :
    ∀ (doneOrder : List Nat) (init : List (α ⊕ β)),
      (doneOrder.foldl
        (fun results i =>
          match items[i]? with
          | some a => results.set i (Sum.inr (f a))
          | none => results)
        init).length = init.length := by
  intro doneOrder
  induction doneOrder with
  | nil => intro init; rfl
  | cons i rest ih =>
    intro init
    rw [List.foldl_cons, ih]
    cases h : items[i]? with
    | none => rfl
    | some a => simp

theorem gatherResults_getElem? {α β : Type} (f : α → β) (items : List α) :
    ∀ (doneOrder : List Nat) (init : List (α ⊕ β)), init.length = items.length →
      ∀ (j : Nat) (a : α), items[j]? = some a →
        ((j ∈ doneOrder →
          (doneOrder.foldl
            (fun results i =>
              match items[i]? with
              | some x => results.set i (Sum.inr (f x))
              | none => results)
            init)[j]? = some (Sum.inr (f a)))
        ∧ (j ∉ doneOrder →
          (doneOrder.foldl
            (fun results i =>
              match items[i]? with
              | some x => results.set i (Sum.inr (f x))
              | none => results)
            init)[j]? = init[j]?)) := by
  intro doneOrder
  induction doneOrder with
  | nil =>
    intro init hlen j a hj
    exact ⟨fun h => absurd h (List.not_mem_nil j), fun _ => rfl⟩
  | cons i rest ih =>
    intro init hlen j a hj
    have hlen' :
        (match items[i]? with
          | some x => init.set i (Sum.inr (f x))
          | none => init).length = items.length := by
      cases h : items[i]? with
      | none => simpa using hlen
      | some x => simpa using hlen
    constructor
    · intro hmem
      rcases List.mem_cons.mp hmem with heq | hmem'
      · subst heq
        by_cases hr : j ∈ rest
        · exact ((ih _ hlen' j a hj).1 hr)
        · rw [List.foldl_cons, (ih _ hlen' j a hj).2 hr]
          rw [hj]
          have hjlt : j < init.length := by
            rw [hlen]
            exact (List.getElem?_eq_some.mp hj).1
          rw [List.getElem?_set_eq_of_lt (Sum.inr (f a)) hjlt]
      · exact (ih _ hlen' j a hj).1 hmem'
    · intro hnm
      have hji : j ≠ i := fun h => hnm (h ▸ List.mem_cons_self i rest)
      have hnr : j ∉ rest := fun h => hnm (List.mem_cons_of_mem i h)
      rw [List.foldl_cons, (ih _ hlen' j a hj).2 hnr]
      cases h : items[i]? with
      | none => rfl
      | some x => exact List.getElem?_set_ne hji.symm

/-- Claim C5: for every batch and every completion order of the dispatched
tasks, `_process_list` returns the results index-aligned with the input
(element `i` is the named method applied to item `i`); and the forced-timeout
output equals the no-pool serial output for the same batch. -/

theorem c5_process_list_order (f : α → β) (items : List α)
    (usePool timedOut : Bool) (doneOrder : List Nat)
    (hperm : doneOrder.Perm (List.range items.length)) :
    processList f items usePool timedOut doneOrder
        = items.map (fun a => Sum.inr (f a))
  ∧ (∀ (j : Nat), (processList f items usePool timedOut doneOrder)[j]?
        = (items[j]?).map fun a => Sum.inr (f a))
  ∧ processList f items true true doneOrder
        = processList f items false false doneOrder := by
  have hmem : ∀ j, j < items.length → j ∈ doneOrder := by
    intro j hjl
    exact hperm.mem_iff.mpr (List.mem_range.mpr hjl)
  have hgather : gatherResults f items doneOrder
      = items.map fun a => Sum.inr (f a) := by
    apply List.ext_getElem?
    intro j
    by_cases hjl : j < items.length
    · obtain ⟨a, hj⟩ : ∃ a, items[j]? = some a := by
        rcases List.mem_iff_getElem?.mp (items.getElem_mem hjl) with ⟨n, hn⟩
        exact ⟨items[j], List.getElem?_eq_some.mpr ⟨hjl, rfl⟩⟩
      rw [gatherResults,
        (gatherResults_getElem? f items doneOrder _ (by simp) j a hj).1 (hmem j hjl)]
      simp [hj]
    · have h1 : items[j]? = none := by
        simp [List.getElem?_eq_none (Nat.le_of_not_lt hjl)]
      rw [gatherResults]
      have h2 := gatherResults_length f items doneOrder (items.map Sum.inl)
      have : (gatherResults f items doneOrder).length = items.length := by
        simpa [gatherResults] using h2
      rw [List.getElem?_eq_none]
      · simp [h1]
      · rw [gatherResults] at this
        rw [this]
        exact Nat.le_of_not_lt hjl
  refine ⟨?_, ?_, ?_⟩
  · unfold processList
    cases usePool <;> cases timedOut <;> simp [hgather]
  · intro j
    have hpl : processList f items usePool timedOut doneOrder
        = items.map fun a => Sum.inr (f a) := by
      unfold processList
      cases usePool <;> cases timedOut <;> simp [hgather]
    rw [hpl]
    simp
  · rfl

theorem c5_process_list_order_witness :
    ([1, 0].Perm (List.range ([10, 20] : List Nat).length))
  ∧ processList Nat.succ [10, 20] true false [1, 0]
      = [Sum.inr 11, Sum.inr 21] :=
  ⟨by decide,
    (c5_process_list_order Nat.succ [10, 20] true false [1, 0] (by decide)).1⟩

example : splitDot ("smart_home.close_door") = ["smart_home", "close_door"] := by
  decide

example : splitDot ("a.b.c") = ["a", "b", "c"] := by decide

example : splitDot ("domain") = ["domain"] := by decide

example : splitDot ("") = [""] := by decide

example :
    extractAllowedIntents [("smart_home", ["close_door", "open_door"])]
      ["smart_home.*"]
      = .ok [("smart_home", ["close_door", "open_door"])] := by
  decide

example :
    extractAllowedIntents [("smart_home", ["close_door", "open_door"])]
      ["smart_home.lock_door"]
      = .error (.allowedClassesKey
          ("Intent: lock_door is not in the NLP component hierarchy")) := by
  decide

example :
    extractAllowedIntents [("smart_home", ["close_door"])] ["a.b.c"]
      = .error .valueError := by
  decide

theorem compHas_cons (p : String × List String) (rest : List (String × List String))
    (d' i' : String) :
    compHas (p :: rest) d' i' = true ↔
      (p.1 = d' ∧ i' ∈ p.2) ∨ compHas rest d' i' = true := by
  simp [compHas]

theorem compDomHas_cons (p : String × List String)
    (rest : List (String × List String)) (d' : String) :
    compDomHas (p :: rest) d' = true ↔ p.1 = d' ∨ compDomHas rest d' = true := by
  simp [compDomHas]

theorem addIntent_compHas :
    ∀ (comps : List (String × List String)) (d i d' i' : String),
      compHas (addIntent comps d i) d' i' = true ↔
        compHas comps d' i' = true ∨ (d = d' ∧ i = i') := by
  intro comps
  induction comps with
  | nil =>
    intro d i d' i'
    simp [addIntent, compHas]
    tauto
  | cons p rest ih =>
    intro d i d' i'
    by_cases hpd : p.1 = d
    · rw [addIntent, if_pos (by simpa using hpd)]
      rw [compHas_cons, compHas_cons]
      by_cases hci : p.2.contains i = true
      · have hmem : i ∈ p.2 := by simpa using hci
        rw [if_pos hci]
        constructor
        · tauto
        · rintro ((⟨h1, h2⟩ | h) | ⟨h1, h2⟩)
          · tauto
          · tauto
          · subst h1
            subst h2
            exact Or.inl ⟨hpd, hmem⟩
      · rw [if_neg hci]
        constructor
        · rintro (⟨h1, h2⟩ | h)
          · rcases List.mem_append.mp h2 with h2 | h2
            · tauto
            · simp at h2
              subst h2
              right
              exact ⟨hpd ▸ h1, rfl⟩
          · tauto
        · rintro ((⟨h1, h2⟩ | h) | ⟨h1, h2⟩)
          · exact Or.inl ⟨h1, List.mem_append.mpr (Or.inl h2)⟩
          · tauto
          · subst h1
            subst h2
            exact Or.inl ⟨hpd, List.mem_append.mpr (Or.inr (by simp))⟩
    · rw [addIntent, if_neg (by simpa using hpd)]
      rw [compHas_cons, compHas_cons, ih d i d' i']
      tauto

theorem addIntent_compDomHas :
    ∀ (comps : List (String × List String)) (d i d' : String),
      compDomHas (addIntent comps d i) d' = true ↔
        compDomHas comps d' = true ∨ d = d' := by
  intro comps
  induction comps with
  | nil =>
    intro d i d'
    simp [addIntent, compDomHas]
  | cons p rest ih =>
    intro d i d'
    by_cases hpd : p.1 = d
    · rw [addIntent, if_pos (by simpa using hpd)]
      rw [compDomHas_cons, compDomHas_cons]
      constructor
      · tauto
      · rintro ((h | h) | h)
        · tauto
        · tauto
        · subst h
          exact Or.inl hpd
    · rw [addIntent, if_neg (by simpa using hpd)]
      rw [compDomHas_cons, compDomHas_cons, ih d i d']
      tauto

theorem ensureDomain_compHas (comps : List (String × List String)) (d d' i' : String) :
    compHas (ensureDomain comps d) d' i' = true ↔ compHas comps d' i' = true := by
  unfold ensureDomain
  by_cases h : comps.any (fun p => p.1 == d) = true
  · rw [if_pos h]
  · rw [if_neg h]
    simp [compHas]

theorem ensureDomain_compDomHas (comps : List (String × List String)) (d d' : String) :
    compDomHas (ensureDomain comps d) d' = true ↔
      compDomHas comps d' = true ∨ d = d' := by
  unfold ensureDomain
  by_cases h : comps.any (fun p => p.1 == d) = true
  · rw [if_pos h]
    constructor
    · tauto
    · rintro (hc | hc)
      · exact hc
      · subst hc
        simpa [compDomHas] using h
  · rw [if_neg h]
    simp [compDomHas]

theorem foldAdd_compHas (d : String) :
    ∀ (js : List String) (comps : List (String × List String)) (d' i' : String),
      compHas (js.foldl (fun c j => addIntent c d j) comps) d' i' = true ↔
        compHas comps d' i' = true ∨ (d = d' ∧ i' ∈ js) := by
  intro js
  induction js with
  | nil =>
    intro comps d' i'
    simp
  | cons j js ih =>
    intro comps d' i'
    rw [List.foldl_cons, ih (addIntent comps d j) d' i', addIntent_compHas]
    constructor
    · rintro ((h | ⟨h1, h2⟩) | ⟨h1, h2⟩)
      · tauto
      · subst h2
        exact Or.inr ⟨h1, by simp⟩
      · exact Or.inr ⟨h1, by simp [h2]⟩
    · rintro (h | ⟨h1, h2⟩)
      · tauto
      · rcases List.mem_cons.mp h2 with h2 | h2
        · subst h2
          tauto
        · tauto

theorem foldAdd_compDomHas (d : String) :
    ∀ (js : List String) (comps : List (String × List String)) (d' : String),
      compDomHas (js.foldl (fun c j => addIntent c d j) comps) d' = true ↔
        compDomHas comps d' = true ∨ (d = d' ∧ js ≠ []) := by
  intro js
  induction js with
  | nil =>
    intro comps d'
    simp
  | cons j js ih =>
    intro comps d'
    rw [List.foldl_cons, ih (addIntent comps d j) d', addIntent_compDomHas]
    constructor
    · rintro ((h | h) | ⟨h1, h2⟩)
      · tauto
      · exact Or.inr ⟨h, by simp⟩
      · exact Or.inr ⟨h1, by simp⟩
    · rintro (h | ⟨h1, h2⟩)
      · tauto
      · tauto

theorem entryValid_elim {domains : List (String × List String)} {s : String}
    (h : entryValid domains s = true) :
    ∃ d i, splitDot s = [d, i] ∧ domainsHas domains d = true ∧
      (i = "*" ∨ (intentsOf domains d).contains i = true) := by
  unfold entryValid at h
  rcases hsp : splitDot s with _ | ⟨d, _ | ⟨i, _ | ⟨x, t⟩⟩⟩
  · rw [hsp] at h
    simp at h
  · rw [hsp] at h
    simp at h
  · rw [hsp] at h
    simp at h
    refine ⟨d, i, rfl, h.1, ?_⟩
    rcases h.2 with h2 | h2
    · exact Or.inl h2
    · exact Or.inr (by simpa using h2)
  · rw [hsp] at h
    simp at h

theorem extractGo_step_valid {domains : List (String × List String)} {s : String}
    {d i : String} (hsp : splitDot s = [d, i])
    (hd : domainsHas domains d = true)
    (hv : i = "*" ∨ (intentsOf domains d).contains i = true)
    (comps : List (String × List String)) (rest : List String) :
    extractAllowedIntentsGo domains comps (s :: rest)
      = extractAllowedIntentsGo domains
          (if i == "*" then
            (intentsOf domains d).foldl (fun c j => addIntent c d j)
              (ensureDomain comps d)
          else addIntent (ensureDomain comps d) d i) rest := by
  simp only [extractAllowedIntentsGo, hsp]
  rw [if_neg (by simp [hd])]
  rw [if_neg ?hneg]
  case hneg =>
    intro hcon
    simp at hcon
    rcases hv with hv | hv
    · exact hcon.1 hv
    · exact absurd hv (by simp [hcon.2])

theorem extractGo_step_baddomain {domains : List (String × List String)} {s : String}
    {d i : String} (hsp : splitDot s = [d, i])
    (hd : domainsHas domains d = false)
    (comps : List (String × List String)) (rest : List String) :
    extractAllowedIntentsGo domains comps (s :: rest)
      = .error (.allowedClassesKey
          ("Domain: " ++ d ++ " is not in the NLP component hierarchy")) := by
  simp only [extractAllowedIntentsGo, hsp]
  rw [if_pos hd]

theorem extractGo_step_badintent {domains : List (String × List String)} {s : String}
    {d i : String} (hsp : splitDot s = [d, i])
    (hd : domainsHas domains d = true) (hi : i ≠ "*")
    (hc : (intentsOf domains d).contains i = false)
    (comps : List (String × List String)) (rest : List String) :
    extractAllowedIntentsGo domains comps (s :: rest)
      = .error (.allowedClassesKey
          ("Intent: " ++ i ++ " is not in the NLP component hierarchy")) := by
  simp only [extractAllowedIntentsGo, hsp]
  rw [if_neg (by simp [hd])]
  rw [if_pos ?hpos]
  case hpos =>
    simp [hi]
    simpa using hc

theorem extractGo_step_valueerror {domains : List (String × List String)} {s : String}
    (hlen : (splitDot s).length ≠ 2)
    (comps : List (String × List String)) (rest : List String) :
    extractAllowedIntentsGo domains comps (s :: rest) = .error .valueError := by
  rcases hsp : splitDot s with _ | ⟨a, _ | ⟨b, _ | ⟨c, t⟩⟩⟩
  · simp only [extractAllowedIntentsGo, hsp]
  · simp only [extractAllowedIntentsGo, hsp]
  · exact absurd (by rw [hsp]; rfl) hlen
  · simp only [extractAllowedIntentsGo, hsp]

theorem extractGo_step_invalid {domains : List (String × List String)} {s : String}
    (h : entryValid domains s = false)
    (comps : List (String × List String)) (rest : List String) :
    ∃ e, extractAllowedIntentsGo domains comps (s :: rest) = .error e := by
  rcases hsp : splitDot s with _ | ⟨d, _ | ⟨i, _ | ⟨x, t⟩⟩⟩
  · exact ⟨.valueError, extractGo_step_valueerror (by rw [hsp]; simp) comps rest⟩
  · exact ⟨.valueError, extractGo_step_valueerror (by rw [hsp]; simp) comps rest⟩
  · by_cases hd : domainsHas domains d = true
    · rw [entryValid, hsp] at h
      simp [hd] at h
      refine ⟨_, extractGo_step_badintent hsp hd ?_ ?_ comps rest⟩
      · simpa using h.1
      · simpa using h.2
    · exact ⟨_, extractGo_step_baddomain hsp
        (by simpa using hd) comps rest⟩
  · exact ⟨.valueError, extractGo_step_valueerror (by rw [hsp]; simp) comps rest⟩

theorem extractGo_ok_iff (domains : List (String × List String)) :
    ∀ (allowed : List String) (comps : List (String × List String)),
      (∃ out, extractAllowedIntentsGo domains comps allowed = .ok out) ↔
        ∀ s ∈ allowed, entryValid domains s = true := by
  intro allowed
  induction allowed with
  | nil =>
    intro comps
    exact ⟨fun _ => by simp, fun _ => ⟨comps, rfl⟩⟩
  | cons s rest ih =>
    intro comps
    by_cases hval : entryValid domains s = true
    · obtain ⟨d, i, hsp, hd, hv⟩ := entryValid_elim hval
      rw [extractGo_step_valid hsp hd hv comps rest, ih]
      constructor
      · intro hrest t ht
        rcases List.mem_cons.mp ht with ht | ht
        · subst ht
          exact hval
        · exact hrest t ht
      · intro hall t ht
        exact hall t (List.mem_cons_of_mem s ht)
    · obtain ⟨e, he⟩ := extractGo_step_invalid (by simpa using hval) comps rest
      constructor
      · rintro ⟨out, hout⟩
        rw [he] at hout
        exact absurd hout (by simp)
      · intro hall
        exact absurd (hall s (List.mem_cons_self s rest)) hval

theorem extractStep_compHas (domains : List (String × List String))
    (comps : List (String × List String)) (d i d' i' : String) :
    compHas
      (if i == "*" then
        (intentsOf domains d).foldl (fun c j => addIntent c d j)
          (ensureDomain comps d)
      else addIntent (ensureDomain comps d) d i) d' i' = true ↔
      compHas comps d' i' = true ∨
      (d = d' ∧ ((i ≠ "*" ∧ i' = i) ∨ (i = "*" ∧ i' ∈ intentsOf domains d))) := by
  by_cases hi : i = "*"
  · rw [if_pos (by simpa using hi)]
    rw [foldAdd_compHas, ensureDomain_compHas]
    constructor
    · rintro (h | ⟨h1, h2⟩)
      · tauto
      · exact Or.inr ⟨h1, Or.inr ⟨hi, h2⟩⟩
    · rintro (h | ⟨h1, ⟨h2, _⟩ | ⟨_, h3⟩⟩)
      · tauto
      · exact absurd hi h2
      · tauto
  · rw [if_neg (by simpa using hi)]
    rw [addIntent_compHas, ensureDomain_compHas]
    constructor
    · rintro (h | ⟨h1, h2⟩)
      · tauto
      · exact Or.inr ⟨h1, Or.inl ⟨hi, h2.symm⟩⟩
    · rintro (h | ⟨h1, ⟨_, h2⟩ | ⟨h2, _⟩⟩)
      · tauto
      · exact Or.inr ⟨h1, h2.symm⟩
      · exact absurd h2 hi

theorem extractStep_compDomHas (domains : List (String × List String))
    (comps : List (String × List String)) (d i d' : String) :
    compDomHas
      (if i == "*" then
        (intentsOf domains d).foldl (fun c j => addIntent c d j)
          (ensureDomain comps d)
      else addIntent (ensureDomain comps d) d i) d' = true ↔
      compDomHas comps d' = true ∨ d = d' := by
  by_cases hi : i = "*"
  · rw [if_pos (by simpa using hi)]
    rw [foldAdd_compDomHas, ensureDomain_compDomHas]
    tauto
  · rw [if_neg (by simpa using hi)]
    rw [addIntent_compDomHas, ensureDomain_compDomHas]
    tauto

theorem extractGo_mem (domains : List (String × List String)) :
    ∀ (allowed : List String) (comps out : List (String × List String)),
      extractAllowedIntentsGo domains comps allowed = .ok out →
      ∀ (d' i' : String),
        (compHas out d' i' = true ↔
          compHas comps d' i' = true ∨
          ∃ s ∈ allowed, ∃ d i, splitDot s = [d, i] ∧ d = d' ∧
            ((i ≠ "*" ∧ i' = i) ∨ (i = "*" ∧ i' ∈ intentsOf domains d)))
      ∧ (compDomHas out d' = true ↔
          compDomHas comps d' = true ∨ ∃ s ∈ allowed, ∃ i, splitDot s = [d', i]) := by
  intro allowed
  induction allowed with
  | nil =>
    intro comps out hout d' i'
    simp only [extractAllowedIntentsGo] at hout
    injection hout with hout
    subst hout
    simp
  | cons s rest ih =>
    intro comps out hout d' i'
    by_cases hval : entryValid domains s = true
    · obtain ⟨d, i, hsp, hd, hv⟩ := entryValid_elim hval
      rw [extractGo_step_valid hsp hd hv comps rest] at hout
      obtain ⟨ih1, ih2⟩ := ih _ out hout d' i'
      rw [extractStep_compHas domains comps d i d' i'] at ih1
      rw [extractStep_compDomHas domains comps d i d'] at ih2
      have hQs : (∃ d0 i0, splitDot s = [d0, i0] ∧ d0 = d' ∧
            ((i0 ≠ "*" ∧ i' = i0) ∨ (i0 = "*" ∧ i' ∈ intentsOf domains d0))) ↔
          (d = d' ∧ ((i ≠ "*" ∧ i' = i) ∨ (i = "*" ∧ i' ∈ intentsOf domains d))) := by
        constructor
        · rintro ⟨d0, i0, hsp0, hd0, hr⟩
          rw [hsp] at hsp0
          injection hsp0 with h1 h2
          injection h2 with h2 h3
          subst h1
          subst h2
          exact ⟨hd0, hr⟩
        · rintro ⟨h1, h2⟩
          exact ⟨d, i, hsp, h1, h2⟩
      have hQsD : (∃ i0, splitDot s = [d', i0]) ↔ d = d' := by
        constructor
        · rintro ⟨i0, hsp0⟩
          rw [hsp] at hsp0
          simp at hsp0
          exact hsp0.1
        · intro hdd
          subst hdd
          exact ⟨i, hsp⟩
      constructor
      · rw [ih1]
        simp only [List.mem_cons, exists_eq_or_imp]
        rw [hQs, or_assoc]
      · rw [ih2]
        simp only [List.mem_cons, exists_eq_or_imp]
        rw [hQsD, or_assoc]
    · obtain ⟨e, he⟩ := extractGo_step_invalid (by simpa using hval) comps rest
      rw [he] at hout
      exact absurd hout (by simp)

theorem extractGo_skip_valid (domains : List (String × List String)) :
    ∀ (pre : List String), (∀ t ∈ pre, entryValid domains t = true) →
      ∀ (comps : List (String × List String)) (l : List String),
        ∃ comps', extractAllowedIntentsGo domains comps (pre ++ l)
          = extractAllowedIntentsGo domains comps' l := by
  intro pre
  induction pre with
  | nil => intro _ comps l; exact ⟨comps, rfl⟩
  | cons t pre ih =>
    intro hall comps l
    obtain ⟨d, i, hsp, hd, hv⟩ :=
      entryValid_elim (hall t (List.mem_cons_self t pre))
    rw [List.cons_append, extractGo_step_valid hsp hd hv comps (pre ++ l)]
    exact ih (fun u hu => hall u (List.mem_cons_of_mem t hu)) _ l

/-- Claim C7: `extract_allowed_intents` raises `AllowedNlpClassesKeyError`
naming the offending label when a top label is not a domain of the hierarchy,
or a sublabel other than `"*"` is not an intent of that domain; otherwise it
returns a mapping from each referenced domain to the set of its referenced
intents, with `"*"` expanded to the full set of that domain's intents. -/

theorem c7_extract_allowed_intents (domains : List (String × List String))
    (allowed : List String) :
    ((∃ out, extractAllowedIntents domains allowed = .ok out) ↔
      ∀ s ∈ allowed, entryValid domains s = true)
  ∧ (∀ out, extractAllowedIntents domains allowed = .ok out →
      ∀ (d' i' : String),
        (compHas out d' i' = true ↔
          ∃ s ∈ allowed, ∃ d i, splitDot s = [d, i] ∧ d = d' ∧
            ((i ≠ "*" ∧ i' = i) ∨ (i = "*" ∧ i' ∈ intentsOf domains d)))
      ∧ (compDomHas out d' = true ↔ ∃ s ∈ allowed, ∃ i, splitDot s = [d', i]))
  ∧ (∀ (pre rest : List String) (s d i : String),
      allowed = pre ++ s :: rest →
      (∀ t ∈ pre, entryValid domains t = true) →
      splitDot s = [d, i] →
      (domainsHas domains d = false →
        extractAllowedIntents domains allowed = .error (.allowedClassesKey
          ("Domain: " ++ d ++ " is not in the NLP component hierarchy")))
      ∧ (domainsHas domains d = true → i ≠ "*" →
        (intentsOf domains d).contains i = false →
        extractAllowedIntents domains allowed = .error (.allowedClassesKey
          ("Intent: " ++ i ++ " is not in the NLP component hierarchy")))) := by
  refine ⟨extractGo_ok_iff domains allowed [], ?_, ?_⟩
  · intro out hout d' i'
    obtain ⟨h1, h2⟩ := extractGo_mem domains allowed [] out hout d' i'
    constructor
    · rw [h1]
      simp [compHas]
    · rw [h2]
      simp [compDomHas]
  · intro pre rest s d i heq hpre hsp
    subst heq
    obtain ⟨comps', hskip⟩ := extractGo_skip_valid domains pre hpre [] (s :: rest)
    constructor
    · intro hd
      rw [extractAllowedIntents, hskip]
      exact extractGo_step_baddomain hsp hd comps' rest
    · intro hd hi hc
      rw [extractAllowedIntents, hskip]
      exact extractGo_step_badintent hsp hd hi hc comps' rest

theorem c7_extract_allowed_intents_witness :
    (∃ out,
      extractAllowedIntents [("smart_home", ["close_door", "open_door"])]
        ["smart_home.*"] = .ok out) ∧
    extractAllowedIntents [("smart_home", ["close_door", "open_door"])]
        ["banking.check"]
      = .error (.allowedClassesKey
          ("Domain: banking is not in the NLP component hierarchy")) :=
  ⟨(c7_extract_allowed_intents [("smart_home", ["close_door", "open_door"])]
      ["smart_home.*"]).1.mpr (by decide),
    ((c7_extract_allowed_intents [("smart_home", ["close_door", "open_door"])]
      ["banking.check"]).2.2 [] [] ("banking.check") ("banking") ("check")
      rfl (by simp) (by decide)).1 (by decide)⟩

/-- Claim C10: an `allowed_intents` entry without exactly one `.` separator
(after any prefix of valid entries) makes `extract_allowed_intents` raise
`ValueError` from tuple unpacking of `split('.')`, not the documented
`AllowedNlpClassesKeyError`. -/

theorem c10_malformed_entry (domains : List (String × List String))
    (pre rest : List String) (s : String)
    (hpre : ∀ t ∈ pre, entryValid domains t = true)
    (hs : (splitDot s).length ≠ 2) :
    extractAllowedIntents domains (pre ++ s :: rest) = .error .valueError
  ∧ ∀ msg, NlpError.valueError ≠ NlpError.allowedClassesKey msg := by
  obtain ⟨comps', hskip⟩ := extractGo_skip_valid domains pre hpre [] (s :: rest)
  refine ⟨?_, fun msg h => by injection h⟩
  rw [extractAllowedIntents, hskip]
  exact extractGo_step_valueerror hs comps' rest

theorem c10_malformed_entry_witness :
    ((splitDot ("a.b.c")).length ≠ 2) ∧
    extractAllowedIntents [("a", ["b"])] ["a.b.c"] = .error .valueError :=
  ⟨by decide,
    (c10_malformed_entry [("a", ["b"])] [] [] ("a.b.c") (by simp) (by decide)).1⟩

/-- Claim C8: when the entity type has zero roles, `process_entity` never
consults the role classifier (empty call trace), returns the entity with its
role left untouched (unset if it was unset) and a `None` confidence score;
`resolve_entity` fills the entity's value from the full aligned group when a
non-empty aligned group is supplied, and from just the single entity when the
group is absent or empty. -/

theorem c8_entity_post_processing (rolePredict : String)
    (roleProba : List (String × Rat)) (entities : List EntObj)
    (entityIndex : Nat) (verbose : Bool) (resolverPredict : List CoreEnt → Nat)
    (qe g : EntObj) (gs : List EntObj) :
    (∀ e, entities[entityIndex]? = some e →
      processEntity [] rolePredict roleProba true entities entityIndex verbose
        = (.ok (e, none), []))
  ∧ resolveEntity resolverPredict true qe (some (g :: gs))
      = .ok { qe with value := some (resolverPredict ((g :: gs).map EntObj.entity)) }
  ∧ resolveEntity resolverPredict true qe none
      = .ok { qe with value := some (resolverPredict [qe.entity]) }
  ∧ resolveEntity resolverPredict true qe (some [])
      = .ok { qe with value := some (resolverPredict [qe.entity]) } := by
  refine ⟨?_, rfl, rfl, rfl⟩
  intro e he
  unfold processEntity
  rw [if_neg (by simp)]
  rw [he]
  simp

theorem c8_entity_post_processing_witness :
    processEntity [] ("head") [] true [⟨"sys_time", 0, 4, none, none⟩] 0 false
      = (.ok (⟨"sys_time", 0, 4, none, none⟩, none), []) :=
  (c8_entity_post_processing ("head") [] [⟨"sys_time", 0, 4, none, none⟩] 0 false
    (fun _ => 0) ⟨"sys_time", 0, 4, none, none⟩ ⟨"sys_time", 0, 4, none, none⟩ []).1
    ⟨"sys_time", 0, 4, none, none⟩ rfl

/-! ## C9 lemmas -/

theorem getObj_congr {store1 store2 : EntStore} {r : Nat}
    (h : store1[r]? = store2[r]?) : getObj store1 r = getObj store2 r := by
  simp [getObj, List.getD_eq_getElem?_getD, h]

theorem roleStepM_ok_length (res : EntResources) (store : EntStore)
    (processed : List Nat) (idx : Nat) (verbose : Bool) :
    ∀ (out : EntStore × Option (List (String × Rat))),
      roleStepM res store processed idx verbose = .ok out →
      out.1.length = store.length := by
  intro out h
  simp only [roleStepM] at h
  by_cases hr : (res.rolesOf (getObj store (processed.getD idx 0)).etype).isEmpty
      = false
  · rw [if_pos hr] at h
    by_cases hv : verbose = true
    · rw [if_pos hv] at h
      cases hp : res.roleProbaOf (getObj store (processed.getD idx 0)).etype
          store processed idx with
      | nil =>
        rw [hp] at h
        simp at h
      | cons r rest =>
        rw [hp] at h
        injection h with h
        subst h
        simp
    · rw [if_neg hv] at h
      injection h with h
      subst h
      simp
  · rw [if_neg hr] at h
    injection h with h
    subst h
    rfl

theorem roleStepM_ok_frame (res : EntResources) (store : EntStore)
    (processed : List Nat) (idx : Nat) (verbose : Bool) (r : Nat)
    (hrne : processed.getD idx 0 ≠ r) :
    ∀ (out : EntStore × Option (List (String × Rat))),
      roleStepM res store processed idx verbose = .ok out →
      out.1[r]? = store[r]? := by
  intro out h
  simp only [roleStepM] at h
  by_cases hr : (res.rolesOf (getObj store (processed.getD idx 0)).etype).isEmpty
      = false
  · rw [if_pos hr] at h
    by_cases hv : verbose = true
    · rw [if_pos hv] at h
      cases hp : res.roleProbaOf (getObj store (processed.getD idx 0)).etype
          store processed idx with
      | nil =>
        rw [hp] at h
        simp at h
      | cons r0 rest =>
        rw [hp] at h
        injection h with h
        subst h
        exact List.getElem?_set_ne hrne
    · rw [if_neg hv] at h
      injection h with h
      subst h
      exact List.getElem?_set_ne hrne
  · rw [if_neg hr] at h
    injection h with h
    subst h
    rfl

theorem classifyAndResolveM_ok_length (res : EntResources) (store : EntStore)
    (processed : List Nat) (aligned : List (List Nat)) (idx : Nat)
    (verbose : Bool) :
    ∀ (out : EntStore × Option (List (String × Rat))),
      classifyAndResolveM res store processed aligned idx verbose = .ok out →
      out.1.length = store.length := by
  intro out h
  cases hrs : roleStepM res store processed idx verbose with
  | error e =>
    simp only [classifyAndResolveM, hrs] at h
    simp at h
  | ok sc =>
    simp only [classifyAndResolveM, hrs] at h
    injection h with h
    subst h
    rw [List.length_set]
    exact roleStepM_ok_length res store processed idx verbose sc hrs

theorem classifyAndResolveM_ok_frame (res : EntResources) (store : EntStore)
    (processed : List Nat) (aligned : List (List Nat)) (idx : Nat)
    (verbose : Bool) (r : Nat) (hrne : processed.getD idx 0 ≠ r) :
    ∀ (out : EntStore × Option (List (String × Rat))),
      classifyAndResolveM res store processed aligned idx verbose = .ok out →
      out.1[r]? = store[r]? := by
  intro out h
  cases hrs : roleStepM res store processed idx verbose with
  | error e =>
    simp only [classifyAndResolveM, hrs] at h
    simp at h
  | ok sc =>
    simp only [classifyAndResolveM, hrs] at h
    injection h with h
    subst h
    rw [List.getElem?_set_ne hrne]
    exact roleStepM_ok_frame res store processed idx verbose r hrne sc hrs

theorem classifyAndResolveM_ok_isSome (res : EntResources) (store : EntStore)
    (processed : List Nat) (aligned : List (List Nat)) (idx : Nat)
    (verbose : Bool) (hc : processed.getD idx 0 < store.length) :
    ∀ (out : EntStore × Option (List (String × Rat))),
      classifyAndResolveM res store processed aligned idx verbose = .ok out →
      (getObj out.1 (processed.getD idx 0)).value.isSome = true := by
  intro out h
  cases hrs : roleStepM res store processed idx verbose with
  | error e =>
    simp only [classifyAndResolveM, hrs] at h
    simp at h
  | ok sc =>
    simp only [classifyAndResolveM, hrs] at h
    injection h with h
    subst h
    have hlen : processed.getD idx 0 < sc.1.length := by
      rw [roleStepM_ok_length res store processed idx verbose sc hrs]
      exact hc
    rw [getObj, List.getD_eq_getElem?_getD, List.getElem?_set_eq_of_lt _ hlen]
    simp

theorem classifyAndResolveM_ok_preserves_isSome (res : EntResources)
    (store : EntStore) (processed : List Nat) (aligned : List (List Nat))
    (idx : Nat) (verbose : Bool) (r : Nat) (hr : r < store.length)
    (h : (getObj store r).value.isSome = true) :
    ∀ (out : EntStore × Option (List (String × Rat))),
      classifyAndResolveM res store processed aligned idx verbose = .ok out →
      (getObj out.1 r).value.isSome = true := by
  intro out hout
  by_cases hrc : processed.getD idx 0 = r
  · subst hrc
    exact classifyAndResolveM_ok_isSome res store processed aligned idx verbose
      hr out hout
  · rw [getObj_congr
      (classifyAndResolveM_ok_frame res store processed aligned idx verbose
        r hrc out hout)]
    exact h

theorem copyFold_spec :
    ∀ (ents0 : List Nat) (store : EntStore) (acc : List Nat),
      (ents0.foldl copyStep (store, acc)).1.length = store.length + ents0.length
    ∧ (ents0.foldl copyStep (store, acc)).2
        = acc ++ List.range' store.length ents0.length
    ∧ ∀ (r : Nat), r < store.length →
        (ents0.foldl copyStep (store, acc)).1[r]? = store[r]? := by
  intro ents0
  induction ents0 with
  | nil =>
    intro store acc
    exact ⟨by simp, by simp, fun r hr => rfl⟩
  | cons r0 rs ih =>
    intro store acc
    rw [List.foldl_cons]
    have hstep : copyStep (store, acc) r0
        = (store ++ [getObj store r0], acc ++ [store.length]) := rfl
    rw [hstep]
    obtain ⟨ih1, ih2, ih3⟩ := ih (store ++ [getObj store r0]) (acc ++ [store.length])
    refine ⟨?_, ?_, ?_⟩
    · rw [ih1]
      simp
      omega
    · rw [ih2]
      simp [List.range'_succ]
    · intro r hr
      rw [ih3 r (by simp; omega)]
      exact List.getElem?_append_left hr

theorem crFold_error (res : EntResources) (copies : List Nat)
    (aligned : List (List Nat)) (verbose : Bool) :
    ∀ (idxs : List Nat) (e : NlpError),
      idxs.foldl (crStep res copies aligned verbose) (.error e) = .error e := by
  intro idxs
  induction idxs with
  | nil => intro e; rfl
  | cons i idxs ih =>
    intro e
    rw [List.foldl_cons]
    exact ih e

theorem crFold_spec (res : EntResources) (copies : List Nat)
    (aligned : List (List Nat)) (verbose : Bool) :
    ∀ (idxs : List Nat) (store : EntStore)
      (acc : List (Option (List (String × Rat))))
      (out : EntStore × List (Option (List (String × Rat)))),
      idxs.foldl (crStep res copies aligned verbose) (.ok (store, acc)) = .ok out →
      out.1.length = store.length
    ∧ (∀ (r : Nat), (∀ i ∈ idxs, copies.getD i 0 ≠ r) → out.1[r]? = store[r]?)
    ∧ (∀ (r : Nat), r < store.length → (getObj store r).value.isSome = true →
        (getObj out.1 r).value.isSome = true)
    ∧ (∀ i ∈ idxs, copies.getD i 0 < store.length →
        (getObj out.1 (copies.getD i 0)).value.isSome = true) := by
  intro idxs
  induction idxs with
  | nil =>
    intro store acc out h
    injection h with h
    have h1 : store = out.1 := congrArg Prod.fst h
    subst h1
    exact ⟨rfl, fun r _ => rfl, fun r _ hs => hs, fun i hi => absurd hi (by simp)⟩
  | cons i0 idxs ih =>
    intro store acc out h
    rw [List.foldl_cons] at h
    cases hc : classifyAndResolveM res store copies aligned i0 verbose with
    | error e =>
      have hstep : crStep res copies aligned verbose (.ok (store, acc)) i0
          = .error e := by
        simp only [crStep, hc]
      rw [hstep, crFold_error] at h
      simp at h
    | ok sc =>
      have hstep : crStep res copies aligned verbose (.ok (store, acc)) i0
          = .ok (sc.1, acc ++ [sc.2]) := by
        simp only [crStep, hc]
      rw [hstep] at h
      obtain ⟨ih1, ih2, ih3, ih4⟩ := ih sc.1 (acc ++ [sc.2]) out h
      have hlen : sc.1.length = store.length :=
        classifyAndResolveM_ok_length res store copies aligned i0 verbose sc hc
      refine ⟨by rw [ih1, hlen], ?_, ?_, ?_⟩
      · intro r hr
        rw [ih2 r (fun i hi => hr i (List.mem_cons_of_mem i0 hi))]
        exact classifyAndResolveM_ok_frame res store copies aligned i0 verbose r
          (hr i0 (List.mem_cons_self i0 idxs)) sc hc
      · intro r hrl hsome
        exact ih3 r (by rw [hlen]; exact hrl)
          (classifyAndResolveM_ok_preserves_isSome res store copies aligned i0
            verbose r hrl hsome sc hc)
      · intro i hi hci
        rcases List.mem_cons.mp hi with hi | hi
        · subst hi
          exact ih3 (copies.getD i 0) (by rw [hlen]; exact hci)
            (classifyAndResolveM_ok_isSome res store copies aligned i verbose
              hci sc hc)
        · exact ih4 i hi (by rw [hlen]; exact hci)

theorem parseEntitiesM_mem (parserChoice : List EntObj → List Nat)
    (store : EntStore) (processed : List Nat) :
    ∀ c ∈ parseEntitiesM parserChoice store processed, c ∈ processed := by
  intro c hc
  obtain ⟨i, _, hi⟩ := List.mem_filterMap.mp hc
  exact List.mem_iff_getElem?.mpr ⟨i, hi⟩

theorem processEntitiesM_spec (res : EntResources)
    (parser : Option (List EntObj → List Nat)) (store : EntStore)
    (ents0 : List Nat) (aligned : List (List Nat)) (verbose : Bool) :
    ∀ (out : EntStore × List Nat × List (Option (List (String × Rat)))),
      processEntitiesM res parser store ents0 aligned verbose = .ok out →
      (∀ (r : Nat), r < store.length → out.1[r]? = store[r]?)
    ∧ (∀ c ∈ out.2.1, c ∈ List.range' store.length ents0.length)
    ∧ out.1.length = store.length + ents0.length
    ∧ (∀ c ∈ out.2.1, (getObj out.1 c).value.isSome = true)
    ∧ (parser = none → out.2.1 = List.range' store.length ents0.length) := by
  intro out h
  obtain ⟨hc1, hc2, hc3⟩ := copyFold_spec ents0 store []
  have hcopies : (ents0.foldl copyStep (store, [])).2
      = List.range' store.length ents0.length := by
    simpa using hc2
  have hclen : (ents0.foldl copyStep (store, [])).2.length = ents0.length := by
    rw [hcopies, List.length_range']
  have hgetD : ∀ (i : Nat), i < ents0.length →
      (ents0.foldl copyStep (store, [])).2.getD i 0 = store.length + i := by
    intro i hi
    rw [hcopies, List.getD_eq_getElem?_getD]
    have h1 := List.getElem?_range' store.length 1 hi
    rw [h1]
    simp
  simp only [processEntitiesM] at h
  cases hm : (List.range (ents0.foldl copyStep (store, [])).2.length).foldl
      (crStep res (ents0.foldl copyStep (store, [])).2 aligned verbose)
      (.ok ((ents0.foldl copyStep (store, [])).1, [])) with
  | error e =>
    rw [hm] at h
    simp at h
  | ok mf =>
    rw [hm] at h
    injection h with h
    subst h
    obtain ⟨hm1, hm2, hm3, hm4⟩ :=
      crFold_spec res (ents0.foldl copyStep (store, [])).2 aligned verbose
        (List.range (ents0.foldl copyStep (store, [])).2.length)
        (ents0.foldl copyStep (store, [])).1 [] mf hm
    have hmemcopy : ∀ c ∈ (ents0.foldl copyStep (store, [])).2,
        c ∈ List.range' store.length ents0.length := by
      intro c hc
      rw [hcopies] at hc
      exact hc
    have hentsub : ∀ c ∈
        (match parser with
          | some p => parseEntitiesM p mf.1 (ents0.foldl copyStep (store, [])).2
          | none => (ents0.foldl copyStep (store, [])).2),
        c ∈ (ents0.foldl copyStep (store, [])).2 := by
      intro c hc
      cases parser with
      | none => exact hc
      | some p => exact parseEntitiesM_mem p mf.1 _ c hc
    have hsome : ∀ c ∈ (ents0.foldl copyStep (store, [])).2,
        (getObj mf.1 c).value.isSome = true := by
      intro c hc
      have hcr : c ∈ List.range' store.length ents0.length := hmemcopy c hc
      have hcb := List.mem_range'_1.mp hcr
      have hi : c - store.length < ents0.length := by omega
      have hgi : (ents0.foldl copyStep (store, [])).2.getD (c - store.length) 0
          = c := by
        rw [hgetD (c - store.length) hi]
        omega
      have himem : c - store.length ∈
          List.range (ents0.foldl copyStep (store, [])).2.length := by
        rw [List.mem_range, hclen]
        exact hi
      have hval := hm4 (c - store.length) himem (by rw [hgi, hc1]; omega)
      rw [hgi] at hval
      exact hval
    refine ⟨?_, ?_, ?_, ?_, ?_⟩
    · intro r hr
      have hne : ∀ i ∈ List.range (ents0.foldl copyStep (store, [])).2.length,
          (ents0.foldl copyStep (store, [])).2.getD i 0 ≠ r := by
        intro i hi
        have hilt : i < ents0.length := by
          rw [← hclen]
          exact List.mem_range.mp hi
        rw [hgetD i hilt]
        omega
      rw [hm2 r hne]
      exact hc3 r hr
    · intro c hc
      exact hmemcopy c (hentsub c hc)
    · rw [hm1]
      exact hc1
    · intro c hc
      exact hsome c (hentsub c hc)
    · intro hnone
      subst hnone
      exact hcopies

theorem alignG_mem_subset {α : Type} (m : α → α → Bool) (nbest : Bool)
    (e0 : List α) (rest : List (List α)) :
    ∀ g ∈ alignG m nbest e0 rest, ∀ x ∈ g, x ∈ e0 ∨ x ∈ rest.flatten := by
  intro g hg x hx
  obtain ⟨i, hi⟩ := List.mem_iff_getElem?.mp hg
  simp only [alignG] at hi
  by_cases hc : 1 < rest.length + 1 ∧ nbest = true
  · rw [if_pos hc] at hi
    have hlen : i < e0.length := by
      have h1 := (List.getElem?_eq_some.mp hi).1
      rw [foldAlign_length, List.length_map] at h1
      exact h1
    have hinit : (e0.map fun e => [e])[i]? = some [e0[i]] := by
      simp [List.getElem?_eq_getElem hlen]
    obtain ⟨suf, h1, h2⟩ := foldAlign_getElem? m e0 rest _ i _ hinit
    rw [hi] at h1
    injection h1 with h1
    subst h1
    rcases List.mem_cons.mp hx with hx | hx
    · subst hx
      exact Or.inl (List.getElem_mem hlen)
    · exact Or.inr (h2 x hx).1
  · rw [if_neg hc] at hi
    rw [List.getElem?_map] at hi
    cases he : e0[i]? with
    | none => rw [he] at hi; simp at hi
    | some e =>
      rw [he] at hi
      simp at hi
      subst hi
      rcases List.mem_singleton.mp hx with hx
      subst hx
      exact Or.inl (List.mem_iff_getElem?.mpr ⟨i, he⟩)

/-- Claim C9: entity post-processing operates only on deep copies — whenever
`process_query` (n-best path) completes, every originally recognized object,
including all objects reachable from the returned `nbest_transcripts_entities`
and `nbest_aligned_entities` fields, is unchanged in the store (role and
value still unset when initially unset), while the returned `entities` are
distinct fresh copies carrying the resolved values filled in by
post-processing: without a structural parser they are exactly the
`len(entities[0])` pairwise-distinct copy locations, and with one they are
drawn from those copy locations. -/
theorem c9_deepcopy_frame (res : EntResources)
    (parser : Option (List EntObj → List Nat)) (store : EntStore)
    (ents0 : List Nat) (restEnts : List (List Nat)) (verbose : Bool)
    (hvalid0 : ∀ r ∈ ents0, r < store.length)
    (hvalidR : ∀ l ∈ restEnts, ∀ r ∈ l, r < store.length)
    (hunset0 : ∀ r ∈ ents0,
      (getObj store r).role = none ∧ (getObj store r).value = none)
    (hunsetR : ∀ l ∈ restEnts, ∀ r ∈ l,
      (getObj store r).role = none ∧ (getObj store r).value = none) :
    ∀ (store2 : EntStore) (pq : PQModel),
      intentProcessQueryNbestM res parser store ents0 restEnts verbose
        = .ok (store2, pq) →
      (∀ (r : Nat), r < store.length → store2[r]? = store[r]?)
    ∧ (∀ l ∈ pq.nbestEntities, ∀ r ∈ l,
        (getObj store2 r).role = none ∧ (getObj store2 r).value = none)
    ∧ (∀ g ∈ pq.nbestAligned, ∀ r ∈ g,
        (getObj store2 r).role = none ∧ (getObj store2 r).value = none)
    ∧ (∀ c ∈ pq.entities, store.length ≤ c)
    ∧ (∀ c ∈ pq.entities, (getObj store2 c).value.isSome = true)
    ∧ (parser = none → pq.entities = List.range' store.length ents0.length
        ∧ pq.entities.Nodup ∧ pq.entities.length = ents0.length)
    ∧ (∀ p, parser = some p →
        ∀ c ∈ pq.entities, c ∈ List.range' store.length ents0.length) := by
  intro store2 pq h
  simp only [intentProcessQueryNbestM] at h
  cases hm : processEntitiesM res parser store ents0
      (alignG (fun a b => spanMatch (getObj store a) (getObj store b)) true
        ents0 restEnts) verbose with
  | error e =>
    rw [hm] at h
    simp at h
  | ok pe =>
    rw [hm] at h
    injection h with h
    have h1 : pe.1 = store2 := congrArg Prod.fst h
    have h2 : pq.entities = pe.2.1 :=
      (congrArg (fun t => t.2.entities) h).symm
    have h3 : pq.nbestEntities = ents0 :: restEnts :=
      (congrArg (fun t => t.2.nbestEntities) h).symm
    have h4 : pq.nbestAligned
        = alignG (fun a b => spanMatch (getObj store a) (getObj store b)) true
            ents0 restEnts :=
      (congrArg (fun t => t.2.nbestAligned) h).symm
    obtain ⟨hp1, hp2, hp3, hp4, hp5⟩ := processEntitiesM_spec res parser store
      ents0
      (alignG (fun a b => spanMatch (getObj store a) (getObj store b)) true
        ents0 restEnts) verbose pe hm
    rw [h1] at hp1 hp4
    rw [← h2] at hp2 hp4 hp5
    have hframe : ∀ (r : Nat), r < store.length →
        getObj store2 r = getObj store r := by
      intro r hr
      exact getObj_congr (hp1 r hr)
    refine ⟨hp1, ?_, ?_, ?_, hp4, ?_, ?_⟩
    · intro l hl r hr
      rw [h3] at hl
      have hrv : r < store.length := by
        rcases List.mem_cons.mp hl with hl | hl
        · subst hl
          exact hvalid0 r hr
        · exact hvalidR l hl r hr
      rw [hframe r hrv]
      rcases List.mem_cons.mp hl with hl | hl
      · subst hl
        exact hunset0 r hr
      · exact hunsetR l hl r hr
    · intro g hg r hr
      rw [h4] at hg
      have hrmem := alignG_mem_subset
        (fun a b => spanMatch (getObj store a) (getObj store b)) true
        ents0 restEnts g hg r hr
      have hrv : r < store.length := by
        rcases hrmem with hx | hx
        · exact hvalid0 r hx
        · obtain ⟨l, hl, hrl⟩ := List.mem_flatten.mp hx
          exact hvalidR l hl r hrl
      rw [hframe r hrv]
      rcases hrmem with hx | hx
      · exact hunset0 r hx
      · obtain ⟨l, hl, hrl⟩ := List.mem_flatten.mp hx
        exact hunsetR l hl r hrl
    · intro c hc
      exact (List.mem_range'_1.mp (hp2 c hc)).1
    · intro hnone
      have he := hp5 hnone
      refine ⟨he, ?_, ?_⟩
      · rw [he]
        exact List.nodup_range' store.length ents0.length
      · rw [he]
        exact List.length_range' store.length 1 ents0.length
    · intro p hp c hc
      exact hp2 c hc

theorem c9_deepcopy_frame_witness :
    ([⟨"number", 5, 6, none, none⟩,
        ⟨"number", 5, 6, none, some 7⟩] : EntStore)[0]?
      = ([⟨"number", 5, 6, none, none⟩] : EntStore)[0]? :=
  ((c9_deepcopy_frame
      ⟨fun _ => [], fun _ _ _ _ => ("r"), fun _ _ _ _ => [], fun _ _ => 7⟩
      none [⟨"number", 5, 6, none, none⟩] [0] [] false
      (by decide) (by simp) (by decide) (by simp))
    [⟨"number", 5, 6, none, none⟩, ⟨"number", 5, 6, none, some 7⟩]
    ⟨[1], [[0]], [[0]], [none]⟩ (by decide)).1 0 (by decide)

theorem c6_lifecycle_witness :
    allNodes (fun s => s.ready = true ∧ s.dirty = true)
      (buildP (ProcTree.node ⟨false, false⟩ []))
  ∧ domainProcessQuery false ["a", "b"] ("a") [] none false
      = (.error (.processorNotReady
          ("Processor not ready, models must be built or loaded first.")), []) :=
  ⟨(c6_lifecycle (ProcTree.node ⟨false, false⟩ []) ⟨false, false⟩ [] []
      ["a", "b"] ("a") [] none false).1,
    (c6_lifecycle (ProcTree.node ⟨false, false⟩ []) ⟨false, false⟩ [] []
      ["a", "b"] ("a") [] none false).2.2.2.2.2⟩
